import Mathlib

/-!
Verification of the meeting-extract workflow of the openclaw repository.

The engine (`runMeetingExtractWorkflow` in the workflow module, together with
`buildPostMeetingCard`) is embedded shallowly: JavaScript strings become
`List Char`, the regex matchers become explicit character-level functions
(each anchored regex in the source is deterministic: every greedy
quantifier is followed by an atom disjoint from the quantified class, so
maximal munch is exact and no backtracking path can succeed where the
maximal one fails; the one backtracking corner of `\s*(.+)$` is modelled
explicitly), JS `Set`/`Map` become lists with membership/association
semantics, and the per-chunk mutable loop becomes a fold over an explicit
engine state.
-/

namespace OpenClaw

/-- JavaScript strings, embedded as lists of characters. -/
abbrev Str := List Char

/-- The character class `\s` of JavaScript regexes (also the set trimmed by
`String.prototype.trim`): tab, LF, VT, FF, CR, space, NBSP, and the Unicode
space separators plus U+2028, U+2029, U+FEFF. -/
def jsWhitespace (c : Char) : Bool :=
  decide (c.toNat = 9 ∨ c.toNat = 10 ∨ c.toNat = 11 ∨ c.toNat = 12 ∨ c.toNat = 13 ∨
    c.toNat = 32 ∨ c.toNat = 160 ∨ c.toNat = 5760 ∨ (8192 ≤ c.toNat ∧ c.toNat ≤ 8202) ∨
    c.toNat = 8232 ∨ c.toNat = 8233 ∨ c.toNat = 8239 ∨ c.toNat = 8287 ∨ c.toNat = 12288 ∨
    c.toNat = 65279)

/-- The character class `\d` of JavaScript regexes: ASCII digits. -/
def isDigitChar (c : Char) : Bool :=
  decide (48 ≤ c.toNat ∧ c.toNat ≤ 57)

/-- The character class `\w` of JavaScript regexes: ASCII letters, digits, underscore. -/
def isWordChar (c : Char) : Bool :=
  decide ((65 ≤ c.toNat ∧ c.toNat ≤ 90) ∨ (97 ≤ c.toNat ∧ c.toNat ≤ 122) ∨
    (48 ≤ c.toNat ∧ c.toNat ≤ 57) ∨ c.toNat = 95)

/-- The character class `[A-Za-z]`. -/
def isAsciiLetter (c : Char) : Bool :=
  decide ((65 ≤ c.toNat ∧ c.toNat ≤ 90) ∨ (97 ≤ c.toNat ∧ c.toNat ≤ 122))

/-- The character class `[\w-]`. -/
def isWordDash (c : Char) : Bool :=
  isWordChar c || decide (c.toNat = 45)

/-- JavaScript regex line terminators (the characters `.` does not match). -/
def lineTerm (c : Char) : Bool :=
  decide (c.toNat = 10 ∨ c.toNat = 13 ∨ c.toNat = 8232 ∨ c.toNat = 8233)

/-- ASCII lower-casing, the case folding JavaScript's `i` flag applies to the
ASCII letters appearing in the source patterns. -/
def lowerAscii (c : Char) : Char :=
  if 65 ≤ c.toNat ∧ c.toNat ≤ 90 then Char.ofNat (c.toNat + 32) else c

/-- `String.prototype.trim`. -/
def jsTrim (l : Str) : Str :=
  ((l.dropWhile jsWhitespace).reverse.dropWhile jsWhitespace).reverse

/-- `text.split(/\r?\n/)`: a separator is an LF, optionally preceded by a CR;
a lone CR does not separate. -/
def splitLinesAux : Str → Str → List Str
  | [], acc => [acc.reverse]
  | '\r' :: '\n' :: rest, acc => acc.reverse :: splitLinesAux rest []
  | '\n' :: rest, acc => acc.reverse :: splitLinesAux rest []
  | c :: rest, acc => splitLinesAux rest (c :: acc)

/-- `text.split(/\r?\n/)`. -/
def splitLines (l : Str) : List Str :=
  splitLinesAux l []

/-- `toLines` from the workflow source: split on line breaks, trim each line,
drop empty lines. -/
def toLines (text : Str) : List Str :=
  ((splitLines text).map jsTrim).filter (fun line => !line.isEmpty)

/-- Matching `\d{4}-\d{2}-\d{2}` at the head of the input; on success returns
the ten matched characters and the remainder. -/
def matchDateShape : Str → Option (Str × Str)
  | d1 :: d2 :: d3 :: d4 :: h1 :: m1 :: m2 :: h2 :: e1 :: e2 :: rest =>
    if isDigitChar d1 && isDigitChar d2 && isDigitChar d3 && isDigitChar d4 && h1 == '-' &&
        isDigitChar m1 && isDigitChar m2 && h2 == '-' && isDigitChar e1 && isDigitChar e2 then
      some ([d1, d2, d3, d4, h1, m1, m2, h2, e1, e2], rest)
    else none
  | _ => none

/-- `\b` holds after the remainder `after` of a date match iff the next
character, when there is one, is not a word character. -/
def boundaryAfter : Str → Bool
  | [] => true
  | c :: _ => !isWordChar c

/-- Left-to-right scan of `text.match(/\b\d{4}-\d{2}-\d{2}\b/)`: at each start
position try the fixed-width date shape guarded by the two word boundaries;
`prevWord` records whether the character before the current position is a word
character (`false` at the start of the string). -/
def findDateAux (prevWord : Bool) : Str → Option Str
  | [] => none
  | c :: rest =>
    match matchDateShape (c :: rest) with
    | some (d, after) =>
      if !prevWord && boundaryAfter after then some d
      else findDateAux (isWordChar c) rest
    | none => findDateAux (isWordChar c) rest

/-- `extractDueDate` from the workflow source:
`text.match(/\b\d{4}-\d{2}-\d{2}\b/)?.[0]`. -/
def extractDueDate (text : Str) : Option Str :=
  findDateAux false text

/-- The character class `[^\s在:：]` of the Chinese owner pattern. -/
def ownerCharZh (c : Char) : Bool :=
  !jsWhitespace c && !(c == '在') && !(c == ':') && !(c == '：')

/-- The regex atom `\s+`: succeed iff the input starts with at least one
whitespace character, consuming the maximal whitespace run.  (Maximal munch is
exact for every `\s+` of the source patterns because the atom after it never
matches whitespace.) -/
def skipWs1 (l : Str) : Option Str :=
  if (l.takeWhile jsWhitespace).isEmpty then none else some (l.dropWhile jsWhitespace)

/-- The anchored match of the Chinese owner regex (owner class run, `\s+`,
the character for "at", `\s+`, the date shape), returning capture group 1.
Each greedy run is followed by an atom disjoint from the run's class, so
maximal munch is exact. -/
def zhOwnerMatch (l : Str) : Option Str :=
  if (l.takeWhile ownerCharZh).isEmpty then none
  else
    match skipWs1 (l.dropWhile ownerCharZh) with
    | some ('在' :: r3) =>
      match skipWs1 r3 with
      | some r4 => if (matchDateShape r4).isSome then some (l.takeWhile ownerCharZh) else none
      | none => none
    | _ => none

/-- The anchored match of the English owner regex (an ASCII letter, a `[\w-]`
run, `\s+`, case-insensitive `by`, `\s+`, the date shape), returning capture
group 1. -/
def enOwnerMatch (l : Str) : Option Str :=
  match l with
  | [] => none
  | c :: cs =>
    if isAsciiLetter c then
      match skipWs1 (cs.dropWhile isWordDash) with
      | some (b :: y :: r3) =>
        if lowerAscii b == 'b' && lowerAscii y == 'y' then
          match skipWs1 r3 with
          | some r4 =>
            if (matchDateShape r4).isSome then some (c :: cs.takeWhile isWordDash) else none
          | none => none
        else none
      | _ => none
    else none

/-- `extractOwner` from the workflow source: Chinese pattern first, then the
English pattern. -/
def extractOwner (text : Str) : Option Str :=
  match zhOwnerMatch text with
  | some o => some o
  | none => enOwnerMatch text

/-- The anchored Chinese replace pattern (owner, `\s+`, "at", `\s+`, date,
`\s+`, optional qian, the two "finish" characters, trailing `\s*`): on a
match, returns the remainder of the string after the matched head. -/
def zhStrip (l : Str) : Option Str :=
  if (l.takeWhile ownerCharZh).isEmpty then none
  else
    match skipWs1 (l.dropWhile ownerCharZh) with
    | some ('在' :: r3) =>
      match skipWs1 r3 with
      | some r4 =>
        match matchDateShape r4 with
        | some (_, r5) =>
          match skipWs1 r5 with
          | some ('前' :: '完' :: '成' :: tl) => some (tl.dropWhile jsWhitespace)
          | some ('完' :: '成' :: tl) => some (tl.dropWhile jsWhitespace)
          | _ => none
        | none => none
      | none => none
    | _ => none

/-- The anchored English replace pattern (owner, `\s+`, `by`, `\s+`, date,
trailing `\s+`): on a match, returns the remainder of the string after the
matched head. -/
def enStrip (l : Str) : Option Str :=
  match l with
  | [] => none
  | c :: cs =>
    if isAsciiLetter c then
      match skipWs1 (cs.dropWhile isWordDash) with
      | some (b :: y :: r3) =>
        if lowerAscii b == 'b' && lowerAscii y == 'y' then
          match skipWs1 r3 with
          | some r4 =>
            match matchDateShape r4 with
            | some (_, r5) => skipWs1 r5
            | none => none
          | none => none
        else none
      | _ => none
    else none

/-- `extractTaskDescription` from the workflow source: try the Chinese strip,
then the English strip, then fall back to the trimmed input. -/
def extractTaskDescription (text : Str) : Str :=
  match zhStrip text with
  | some r => jsTrim r
  | none =>
    match enStrip text with
    | some r => jsTrim r
    | none => jsTrim text

/-- Strip an exact literal from the head of the input: `dropLit lit l = some r`
iff `l = lit ++ r`. -/
def dropLit : Str → Str → Option Str
  | [], l => some l
  | _ :: _, [] => none
  | c :: cs, d :: ds => if d = c then dropLit cs ds else none

/-- Strip an ASCII-case-insensitive literal from the head of the input. -/
def dropLitCI : Str → Str → Option Str
  | [], l => some l
  | _ :: _, [] => none
  | c :: cs, d :: ds => if lowerAscii d = lowerAscii c then dropLitCI cs ds else none

/-- The `\s*[:：]\s*(.+)$` tail of the two marker regexes, applied to the
input after the marker literal; returns capture group 1.  `\s*` before the
colon is exact maximal munch.  After the colon, when some input is left
past the maximal whitespace run, `(.+)$` matches it exactly iff it contains
no line terminator; when nothing is left, the engine backtracks `\s*` by one
character and `(.+)$` captures that single final whitespace character
provided `.` can match it. -/
def colonTail (r1 : Str) : Option Str :=
  match r1.dropWhile jsWhitespace with
  | [] => none
  | c :: r3 =>
    if c = ':' ∨ c = '：' then
      let ws := r3.takeWhile jsWhitespace
      let rem := r3.dropWhile jsWhitespace
      if rem.isEmpty then
        match ws.getLast? with
        | some w => if lineTerm w then none else some [w]
        | none => none
      else if rem.any lineTerm then none else some rem
    else none

/-- A marker regex `^(?:<zh>|<en>)\s*[:：]\s*(.+)$` with the English
alternative case-insensitive; the two alternatives are tried in order
(their first characters are disjoint, so no cross-alternative backtracking
can occur). -/
def markerCapture (zh : Str) (en : Str) (line : Str) : Option Str :=
  match (match dropLit zh line with
         | some r => colonTail r
         | none => none) with
  | some g => some g
  | none =>
    match dropLitCI en line with
    | some r => colonTail r
    | none => none

/-- The decision marker `^(?:决策|decision)\s*[:：]\s*(.+)$/i`. -/
def decisionCapture (line : Str) : Option Str :=
  markerCapture ['决', '策'] ['d', 'e', 'c', 'i', 's', 'i', 'o', 'n'] line

/-- The task marker `^(?:待办|action)\s*[:：]\s*(.+)$/i`. -/
def taskCapture (line : Str) : Option Str :=
  markerCapture ['待', '办'] ['a', 'c', 't', 'i', 'o', 'n'] line

/-- The `MeetingTask` record of the workflow source (`text` is the raw task
text; JS `raw_text` in the spec's vocabulary). -/
structure MeetingTask where
  text : Str
  description : Str
  owner : Option Str
  due_at : Option Str
deriving DecidableEq, Repr

/-- Build a `MeetingTask` from its raw text, as the task branch of
`extractMeetingSignals` does. -/
def mkMeetingTask (t : Str) : MeetingTask :=
  { text := t
    description := extractTaskDescription t
    owner := extractOwner t
    due_at := extractDueDate t }

/-- `extractMeetingSignals` from the workflow source: classify each trimmed
non-empty line as decision, task, or noise, in line order. -/
def extractMeetingSignals (text : Str) : List Str × List MeetingTask :=
  (toLines text).foldl
    (fun acc line =>
      match decisionCapture line with
      | some g => (acc.1 ++ [jsTrim g], acc.2)
      | none =>
        match taskCapture line with
        | some g => (acc.1, acc.2 ++ [mkMeetingTask (jsTrim g)])
        | none => acc)
    ([], [])

/-- The two conflict kinds of a `PendingConfirmation`. -/
inductive ConflictType where
  | owner_conflict
  | date_conflict
deriving DecidableEq, Repr

/-- The `PendingConfirmation` record of the workflow source. -/
structure PendingConfirmation where
  conflict_type : ConflictType
  description : Str
  candidates : List MeetingTask
deriving DecidableEq, Repr

/-- The `IncrementalUpdate` record; the `*_added` fields are JS numbers and
can be negative when a chunk evicts more confirmed tasks than it adds. -/
structure IncrementalUpdate where
  chunk_index : Nat
  decisions_added : Int
  tasks_added : Int
  total_decisions : Nat
  total_tasks : Nat
deriving DecidableEq, Repr

/-- JS truthiness of an optional string attribute (`Boolean(x)`):
present and non-empty. -/
def jsTruthy (o : Option Str) : Bool :=
  match o with
  | some s => !s.isEmpty
  | none => false

/-- Whether a queued bucket matches a `(conflict_type, description)` pair. -/
def sameBucket (ct : ConflictType) (d : Str) (pc : PendingConfirmation) : Bool :=
  decide (pc.conflict_type = ct ∧ pc.description = d)

/-- Append one candidate unless a candidate with the same raw text is already
present (the dedup loop body of `upsertPendingConfirmation`). -/
def addCandidate (cands : List MeetingTask) (c : MeetingTask) : List MeetingTask :=
  if cands.any (fun t => t.text == c.text) then cands else cands ++ [c]

/-- Append several candidates in order, each deduplicated by raw text. -/
def addCandidates (cands : List MeetingTask) (cs : List MeetingTask) : List MeetingTask :=
  cs.foldl addCandidate cands

/-- Update the first bucket matching the pair (JS `Array.prototype.find`). -/
def updateFirstBucket (ct : ConflictType) (d : Str) (cs : List MeetingTask) :
    List PendingConfirmation → List PendingConfirmation
  | [] => []
  | pc :: rest =>
    if sameBucket ct d pc then
      { pc with candidates := addCandidates pc.candidates cs } :: rest
    else pc :: updateFirstBucket ct d cs rest

/-- `upsertPendingConfirmation` from the workflow source: find-or-create the
bucket for the pair, then insert the candidates with raw-text dedup. -/
def upsertPendingConfirmation (pending : List PendingConfirmation) (ct : ConflictType)
    (d : Str) (cs : List MeetingTask) : List PendingConfirmation :=
  if pending.any (sameBucket ct d) then updateFirstBucket ct d cs pending
  else pending ++ [{ conflict_type := ct, description := d, candidates := addCandidates [] cs }]

/-- The confirmed-task index `Map<string, MeetingTask>`: lookup. -/
def idxGet (idx : List (Str × MeetingTask)) (d : Str) : Option MeetingTask :=
  (idx.find? (fun p => p.1 == d)).map Prod.snd

/-- The confirmed-task index: `Map.delete`. -/
def idxDelete (idx : List (Str × MeetingTask)) (d : Str) : List (Str × MeetingTask) :=
  idx.filter (fun p => !(p.1 == d))

/-- The confirmed-task index: `Map.set` (replace in place, or append). -/
def idxSet (idx : List (Str × MeetingTask)) (d : Str) (t : MeetingTask) :
    List (Str × MeetingTask) :=
  if (idx.find? (fun p => p.1 == d)).isSome then
    idx.map (fun p => if p.1 == d then (d, t) else p)
  else idx ++ [(d, t)]

/-- The mutable state of one engine invocation: the dedup sets, the conflicted
set, the decision and confirmed-task output lists, the confirmed index, and
the pending queue. -/
structure EngineState where
  seenDecision : List Str
  seenTask : List Str
  conflicted : List Str
  decisions : List Str
  tasks : List MeetingTask
  confirmedIdx : List (Str × MeetingTask)
  pending : List PendingConfirmation
deriving DecidableEq, Repr

/-- The state at the start of a run: everything empty. -/
def initState : EngineState :=
  { seenDecision := []
    seenTask := []
    conflicted := []
    decisions := []
    tasks := []
    confirmedIdx := []
    pending := [] }

/-- The decision loop body of the workflow: drop previously seen decision
strings, append new ones to the seen set and the output list. -/
def processDecision (st : EngineState) (d : Str) : EngineState :=
  if d ∈ st.seenDecision then st
  else { st with seenDecision := d :: st.seenDecision, decisions := st.decisions ++ [d] }

/-- The owner-conflict test of the workflow: both owners JS-truthy and the
values strictly unequal. -/
def ownerConflictB (existing task : MeetingTask) : Bool :=
  jsTruthy existing.owner && jsTruthy task.owner && !(existing.owner == task.owner)

/-- The date-conflict test of the workflow. -/
def dateConflictB (existing task : MeetingTask) : Bool :=
  jsTruthy existing.due_at && jsTruthy task.due_at && !(existing.due_at == task.due_at)

/-- One conditional upsert of the eviction branch: when `cond` (the conflict
test for `ct`) holds, upsert the `(ct, description)` bucket with the evicted
and the new task. -/
def evictPendingStep (pending : List PendingConfirmation) (task existing : MeetingTask)
    (ct : ConflictType) (cond : Bool) : List PendingConfirmation :=
  if cond then upsertPendingConfirmation pending ct task.description [existing, task]
  else pending

/-- The pending-queue effect of the eviction branch: upsert an owner-conflict
bucket and/or a date-conflict bucket with the evicted and the new task. -/
def evictPending (pending : List PendingConfirmation) (task existing : MeetingTask) :
    List PendingConfirmation :=
  evictPendingStep
    (evictPendingStep pending task existing .owner_conflict (ownerConflictB existing task))
    task existing .date_conflict (dateConflictB existing task)

/-- One iteration of the conflict-type loop of the already-conflicted branch:
append the task to the bucket of this type for its description when such a
bucket is already queued. -/
def queuePendingStep (pending : List PendingConfirmation) (task : MeetingTask)
    (ct : ConflictType) : List PendingConfirmation :=
  if pending.any (sameBucket ct task.description) then
    upsertPendingConfirmation pending ct task.description [task]
  else pending

/-- The pending-queue effect of the already-conflicted branch: the
conflict-type loop over owner conflicts then date conflicts. -/
def queuePending (pending : List PendingConfirmation) (task : MeetingTask) :
    List PendingConfirmation :=
  queuePendingStep (queuePendingStep pending task .owner_conflict) task .date_conflict

/-- The task loop body of the workflow: raw-text dedup, then the three-way
branch on the confirmed index and the conflicted set. -/
def processTask (st : EngineState) (task : MeetingTask) : EngineState :=
  if task.text ∈ st.seenTask then st
  else
    match idxGet st.confirmedIdx task.description with
    | some existing =>
      if ownerConflictB existing task || dateConflictB existing task then
        { st with
          seenTask := task.text :: st.seenTask
          conflicted := task.description :: st.conflicted
          confirmedIdx := idxDelete st.confirmedIdx task.description
          tasks := st.tasks.filter (fun it => !(it.description == task.description))
          pending := evictPending st.pending task existing }
      else { st with seenTask := task.text :: st.seenTask }
    | none =>
      if task.description ∈ st.conflicted then
        { st with
          seenTask := task.text :: st.seenTask
          pending := queuePending st.pending task }
      else
        { st with
          seenTask := task.text :: st.seenTask
          confirmedIdx := idxSet st.confirmedIdx task.description task
          tasks := st.tasks ++ [task] }

/-- Process one chunk: extract its signals, then run the decision loop and the
task loop. -/
def processChunk (st : EngineState) (chunk : Str) : EngineState :=
  let sig := extractMeetingSignals chunk
  let st1 := sig.1.foldl processDecision st
  sig.2.foldl processTask st1

/-- Process one chunk and record its incremental update. -/
def stepChunk (st : EngineState) (idx : Nat) (chunk : Str) :
    EngineState × IncrementalUpdate :=
  let st' := processChunk st chunk
  (st',
    { chunk_index := idx
      decisions_added := (st'.decisions.length : Int) - (st.decisions.length : Int)
      tasks_added := (st'.tasks.length : Int) - (st.tasks.length : Int)
      total_decisions := st'.decisions.length
      total_tasks := st'.tasks.length })

/-- The `forEach` over the chunk list, threading the engine state and
collecting the per-chunk updates in order; `idx` is the index of the first
chunk of the remaining list. -/
def runChunksFrom (st : EngineState) (idx : Nat) :
    List Str → EngineState × List IncrementalUpdate
  | [] => (st, [])
  | c :: cs =>
    let r := stepChunk st idx c
    let rest := runChunksFrom r.1 (idx + 1) cs
    (rest.1, r.2 :: rest.2)

/-- One element of `payload.transcript_stream`, as discriminated by
`readTranscriptChunks`: a plain string, a non-array object whose `text` field
is a string when `some`, or any other value (null, number, boolean, array,
object without a string `text`). -/
inductive StreamItem where
  | strItem (s : Str)
  | objItem (text : Option Str)
  | badItem
deriving DecidableEq, Repr

/-- The normalisation `readTranscriptChunks` applies to one stream item before
filtering: strings and string `text` fields are trimmed, everything else
becomes the empty string. -/
def normalizeStreamItem : StreamItem → Str
  | .strItem s => jsTrim s
  | .objItem (some t) => jsTrim t
  | .objItem none => []
  | .badItem => []

/-- The payload fields the workflow reads.  A field whose JS value has the
wrong type behaves exactly like an absent field (`meeting_id`, `raw_text`) or
like an empty array (`transcript_stream`), so those cases are collapsed into
`none` / `[]`. -/
structure Payload where
  meeting_id : Option Str
  raw_text : Option Str
  transcript_stream : List StreamItem
deriving Repr

/-- The `source_type` discriminator of the result. -/
inductive SourceType where
  | text
  | transcript_stream
deriving DecidableEq, Repr

/-- The value returned by `readTranscriptChunks`. -/
structure TranscriptInfo where
  text : Str
  sourceType : SourceType
  chunks : List Str
deriving DecidableEq, Repr

/-- `readTranscriptChunks` from the workflow source: a non-empty
`transcript_stream` wins; its items are normalised and empty ones dropped;
otherwise the trimmed `raw_text` is the single chunk (or no chunk at all when
it trims to empty). -/
def readTranscriptChunks (p : Payload) : TranscriptInfo :=
  if p.transcript_stream.isEmpty then
    let rawText := jsTrim (p.raw_text.getD [])
    { text := rawText
      sourceType := .text
      chunks := if rawText.isEmpty then [] else [rawText] }
  else
    let chunks := (p.transcript_stream.map normalizeStreamItem).filter (fun c => !c.isEmpty)
    { text := List.intercalate ['\n'] chunks
      sourceType := .transcript_stream
      chunks := chunks }

/-- `readMeetingId` from the workflow source: the trimmed string payload field
when non-empty, else the request id. -/
def readMeetingId (requestId : Str) (p : Payload) : Str :=
  match p.meeting_id with
  | some v => if (jsTrim v).isEmpty then requestId else jsTrim v
  | none => requestId

/-- One rendered item of the dispatch card. -/
structure CardItem where
  recommendation_id : Str
  title : Str
  owner : Option Str
  due_at : Option Str
  actions : List Str
deriving DecidableEq, Repr

/-- The `MeetingDispatchCard` record of the card module. -/
structure MeetingDispatchCard where
  card_type : Str
  title : Str
  meeting_id : Str
  task_count : Nat
  pending_count : Nat
  items : List CardItem
deriving DecidableEq, Repr

/-- The fixed action set of every card item. -/
def cardActions : List Str :=
  ["accept".toList, "ignore".toList, "reschedule".toList]

/-- `buildPostMeetingCard` from the card module. -/
def buildPostMeetingCard (meetingId : Str) (tasks : List MeetingTask)
    (pendingConfirmations : List PendingConfirmation) : MeetingDispatchCard :=
  { card_type := "meeting_dispatch".toList
    title := "会议结束后确认并派发".toList
    meeting_id := meetingId
    task_count := tasks.length
    pending_count := pendingConfirmations.length
    items := (tasks.take 8).mapIdx (fun index task =>
      { recommendation_id := meetingId ++ "-task-".toList ++ (Nat.repr (index + 1)).toList
        title := if task.description.isEmpty then task.text else task.description
        owner := task.owner
        due_at := task.due_at
        actions := cardActions }) }

/-- The `data` field of the workflow result. -/
structure ExtractionData where
  workflow : Str
  mode : Str
  meeting_id : Str
  source_type : SourceType
  transcript_text : Str
  decision_count : Nat
  task_count : Nat
  decisions : List Str
  tasks : List MeetingTask
  pending_confirmations : List PendingConfirmation
  post_meeting_card : MeetingDispatchCard
  incremental_updates : List IncrementalUpdate
deriving DecidableEq, Repr

/-- The workflow status enumeration of the types module. -/
inductive WorkflowStatus where
  | success
  | partialStatus
  | failed
deriving DecidableEq, Repr

/-- The `WorkflowResult` envelope of the types module. -/
structure WorkflowResult (T : Type) where
  request_id : Str
  session_id : Str
  run_id : Str
  status : WorkflowStatus
  data : T
  errors : List Str
deriving Repr

/-- The request-context fields the workflow reads. -/
structure WorkflowContext where
  tenantId : Str
  requestId : Str
  sessionId : Str
  runId : Str
deriving Repr

/-- `buildDryRunSuccessResult` from the types module: status `success`, no
errors, correlation ids copied from the context. -/
def buildDryRunSuccessResult (ctx : WorkflowContext) (data : T) : WorkflowResult T :=
  { request_id := ctx.requestId
    session_id := ctx.sessionId
    run_id := ctx.runId
    status := .success
    data := data
    errors := [] }

/-- `runMeetingExtractWorkflow` from the workflow source. -/
def runMeetingExtractWorkflow (ctx : WorkflowContext) (p : Payload) :
    WorkflowResult ExtractionData :=
  let meetingId := readMeetingId ctx.requestId p
  let transcript := readTranscriptChunks p
  let r := runChunksFrom initState 0 transcript.chunks
  let st := r.1
  buildDryRunSuccessResult ctx
    { workflow := "meeting-extract".toList
      mode := "dry-run".toList
      meeting_id := meetingId
      source_type := transcript.sourceType
      transcript_text := transcript.text
      decision_count := st.decisions.length
      task_count := st.tasks.length
      decisions := st.decisions
      tasks := st.tasks
      pending_confirmations := st.pending
      post_meeting_card := buildPostMeetingCard meetingId st.tasks st.pending
      incremental_updates := r.2 }

/-! ## Specification-side definitions

The following definitions are written from the specification's words, not
from the source; the theorems below compare them with the embedded code. -/

/-- Written from the claim's words: the first `YYYY-MM-DD`-shaped substring of
the input, wherever it occurs, with no condition on the surrounding
characters. -/
def specFirstDateSub (l : Str) : Option Str :=
  (List.range l.length).findSome? (fun i => (matchDateShape (l.drop i)).map Prod.fst)

/-- `\b` before a date match, as a function of the preceding character
(`none` at the start of the string). -/
def boundaryBeforeOf : Option Char → Bool
  | none => true
  | some c => !isWordChar c

/-- Whether the preceding character is a word character. -/
def prevIsWord : Option Char → Bool
  | none => false
  | some c => isWordChar c

/-- Position-indexed scan for the first date-shaped substring standing at word
boundaries; `prev` is the character just before the scanned string. -/
def specScan (prev : Option Char) (l : Str) : Option Str :=
  (List.range l.length).findSome? (fun i =>
    match matchDateShape (l.drop i) with
    | some (d, after) =>
      if boundaryBeforeOf (match i with | 0 => prev | j + 1 => l[j]?) && boundaryAfter after then
        some d
      else none
    | none => none)

/-- The amended due-date specification: the first `YYYY-MM-DD`-shaped
substring that is neither immediately preceded nor immediately followed by an
ASCII letter, digit or underscore; `none` when there is no such substring. -/
def specDueDate (l : Str) : Option Str :=
  specScan none l

/-- A `YYYY-MM-DD`-shaped string: exactly ten characters, digits and dashes
in the shape `\d{4}-\d{2}-\d{2}`. -/
def dateShapeB : Str → Bool
  | [d1, d2, d3, d4, h1, m1, m2, h2, e1, e2] =>
    isDigitChar d1 && isDigitChar d2 && isDigitChar d3 && isDigitChar d4 && h1 == '-' &&
      isDigitChar m1 && isDigitChar m2 && h2 == '-' && isDigitChar e1 && isDigitChar e2
  | _ => false

/-- A non-empty run of JS whitespace. -/
def wsRun (l : Str) : Prop :=
  l ≠ [] ∧ ∀ c ∈ l, jsWhitespace c = true

/-- Written from the spec: the input decomposes as
`<owner> \s+ 在 \s+ <YYYY-MM-DD> <anything>`, the owner being a non-empty run
of characters outside `[\s在:：]`.  The decomposition determines the owner
uniquely because each run is delimited by a character outside its class. -/
def ZhOwnerSpec (raw o : Str) : Prop :=
  ∃ ws1 ws2 d rest,
    raw = o ++ ws1 ++ '在' :: (ws2 ++ d ++ rest) ∧
    o ≠ [] ∧ (∀ c ∈ o, ownerCharZh c = true) ∧ wsRun ws1 ∧ wsRun ws2 ∧ dateShapeB d = true

/-- Written from the spec: the input decomposes as
`<owner> \s+ by \s+ <YYYY-MM-DD> <anything>` with `by` case-insensitive, the
owner being an ASCII letter followed by a run of `[\w-]` characters. -/
def EnOwnerSpec (raw o : Str) : Prop :=
  ∃ c tl ws1 b y ws2 d rest,
    raw = (c :: tl) ++ ws1 ++ b :: y :: (ws2 ++ d ++ rest) ∧
    o = c :: tl ∧ isAsciiLetter c = true ∧ (∀ x ∈ tl, isWordDash x = true) ∧
    wsRun ws1 ∧ lowerAscii b = 'b' ∧ lowerAscii y = 'y' ∧ wsRun ws2 ∧ dateShapeB d = true

/-- Written from the spec: the input decomposes as the full leading
`<owner> 在 <date> 前?完成` pattern (with the inter-token whitespace the
regex requires and the trailing whitespace it consumes) followed by `rest`;
`rest` does not start with whitespace, making the decomposition unique. -/
def ZhStripSpec (raw rest : Str) : Prop :=
  ∃ o ws1 ws2 d ws3 q ws4,
    raw = o ++ ws1 ++ '在' :: (ws2 ++ d ++ ws3 ++ q ++ '完' :: '成' :: (ws4 ++ rest)) ∧
    o ≠ [] ∧ (∀ c ∈ o, ownerCharZh c = true) ∧ wsRun ws1 ∧ wsRun ws2 ∧ dateShapeB d = true ∧
    wsRun ws3 ∧ (q = [] ∨ q = ['前']) ∧ (∀ c ∈ ws4, jsWhitespace c = true) ∧
    (∀ c, rest.head? = some c → jsWhitespace c = false)

/-- Written from the spec: the input decomposes as the full leading
`<owner> by <date> ` pattern (trailing whitespace included) followed by
`rest`, which does not start with whitespace. -/
def EnStripSpec (raw rest : Str) : Prop :=
  ∃ c tl ws1 b y ws2 d ws3,
    raw = (c :: tl) ++ ws1 ++ b :: y :: (ws2 ++ d ++ ws3 ++ rest) ∧
    isAsciiLetter c = true ∧ (∀ x ∈ tl, isWordDash x = true) ∧ wsRun ws1 ∧
    lowerAscii b = 'b' ∧ lowerAscii y = 'y' ∧ wsRun ws2 ∧ dateShapeB d = true ∧ wsRun ws3 ∧
    (∀ x, rest.head? = some x → jsWhitespace x = false)

/-- The conclusion of the owner/description parsing claim for one raw text:
the Chinese pattern is tried first, the English pattern only when the Chinese
one fails, the description is the remainder after the full strip, and both
fall back (owner absent, description unchanged) when nothing matches. -/
def OwnerDescriptionSpec (raw : Str) : Prop :=
  (∀ o, ZhOwnerSpec raw o → extractOwner raw = some o) ∧
  (∀ o, EnOwnerSpec raw o → (∀ o', ¬ZhOwnerSpec raw o') → extractOwner raw = some o) ∧
  ((∀ o, ¬ZhOwnerSpec raw o) → (∀ o, ¬EnOwnerSpec raw o) → extractOwner raw = none) ∧
  (∀ rest, ZhStripSpec raw rest → extractTaskDescription raw = rest) ∧
  (∀ rest, EnStripSpec raw rest → (∀ r', ¬ZhStripSpec raw r') →
    extractTaskDescription raw = rest) ∧
  ((∀ r, ¬ZhStripSpec raw r) → (∀ r, ¬EnStripSpec raw r) → extractTaskDescription raw = raw)

/-! ## Invariants of the engine state -/

/-- Attribute values the parser can actually produce: an optional attribute is
never the empty string (so JS truthiness of the attribute coincides with
presence). -/
structure TaskOk (t : MeetingTask) : Prop where
  owner_ok : t.owner ≠ some []
  due_ok : t.due_at ≠ some []

/-- Well-formedness of an engine state, maintained by every run:
a confirmed description is never conflicted, every queued bucket belongs to a
conflicted description, the index stores the task under its own description
with raw text already seen and parser-shaped attributes, confirmed-index
entries appear in the output list, and no two buckets share their
`(conflict_type, description)` key. -/
structure WF (st : EngineState) : Prop where
  idx_not_conflicted : ∀ d, (idxGet st.confirmedIdx d).isSome → d ∉ st.conflicted
  pending_conflicted : ∀ pc ∈ st.pending, pc.description ∈ st.conflicted
  idx_seen : ∀ d t, idxGet st.confirmedIdx d = some t → t.text ∈ st.seenTask
  idx_desc : ∀ d t, idxGet st.confirmedIdx d = some t → t.description = d
  idx_ok : ∀ d t, idxGet st.confirmedIdx d = some t → TaskOk t
  idx_in_tasks : ∀ d t, idxGet st.confirmedIdx d = some t → t ∈ st.tasks
  buckets_unique :
    st.pending.Pairwise (fun a b =>
      ¬(a.conflict_type = b.conflict_type ∧ a.description = b.description))

/-- States reachable in some run: the initial state, closed under the decision
step and the task step for parser-shaped tasks. -/
inductive Reach : EngineState → Prop where
  | init : Reach initState
  | dec : ∀ st d, Reach st → Reach (processDecision st d)
  | task : ∀ st t, TaskOk t → Reach st → Reach (processTask st t)

/-- All candidate lists of a pending queue are duplicate-free by raw text. -/
def PendingNodup (pending : List PendingConfirmation) : Prop :=
  ∀ pc ∈ pending, (pc.candidates.map MeetingTask.text).Nodup

/-- A chunk is covered by a state when all its extracted signals have already
been recorded in the dedup sets. -/
def Covers (st : EngineState) (chunk : Str) : Prop :=
  (∀ d ∈ (extractMeetingSignals chunk).1, d ∈ st.seenDecision) ∧
  (∀ t ∈ (extractMeetingSignals chunk).2, t.text ∈ st.seenTask)

/-! ## Character-class lemmas -/

theorem ws_not_ownerCharZh {c : Char} (h : jsWhitespace c = true) : ownerCharZh c = false := by
  simp [ownerCharZh, h]

theorem digit_not_ws {c : Char} (h : isDigitChar c = true) : jsWhitespace c = false := by
  simp only [isDigitChar, decide_eq_true_eq] at h
  simp only [jsWhitespace, decide_eq_false_iff_not]
  omega

theorem ws_not_wordDash {c : Char} (h : jsWhitespace c = true) : isWordDash c = false := by
  simp only [jsWhitespace, decide_eq_true_eq] at h
  simp only [isWordDash, isWordChar, Bool.or_eq_false_iff, decide_eq_false_iff_not]
  omega

/-! ## takeWhile / dropWhile decomposition lemmas -/

theorem takeWhile_app {α : Type} {p : α → Bool} {a b : List α} (ha : ∀ x ∈ a, p x = true)
    (hb : ∀ c, b.head? = some c → p c = false) : (a ++ b).takeWhile p = a := by
  induction a with
  | nil =>
    cases b with
    | nil => rfl
    | cons c cs => simp [List.takeWhile_cons, hb c rfl]
  | cons x xs ih =>
    have hx := ha x (by simp)
    simp only [List.cons_append, List.takeWhile_cons, hx, if_true]
    rw [ih (fun y hy => ha y (by simp [hy]))]

theorem dropWhile_app {α : Type} {p : α → Bool} {a b : List α} (ha : ∀ x ∈ a, p x = true)
    (hb : ∀ c, b.head? = some c → p c = false) : (a ++ b).dropWhile p = b := by
  induction a with
  | nil =>
    cases b with
    | nil => rfl
    | cons c cs => simp [List.dropWhile_cons, hb c rfl]
  | cons x xs ih =>
    have hx := ha x (by simp)
    simp only [List.cons_append, List.dropWhile_cons, hx, if_true]
    exact ih (fun y hy => ha y (by simp [hy]))

/-! ## Date-shape lemmas -/

theorem matchDateShape_some {l d r : Str} (h : matchDateShape l = some (d, r)) :
    l = d ++ r ∧ dateShapeB d = true := by
  unfold matchDateShape at h
  split at h
  case _ d1 d2 d3 d4 h1 m1 m2 h2 e1 e2 rest =>
    split at h
    case isTrue hc =>
      obtain ⟨hd, hr⟩ := Prod.mk.injEq .. ▸ Option.some.injEq .. ▸ h
      subst hd
      subst hr
      exact ⟨rfl, hc⟩
    case isFalse => exact absurd h (by simp)
  case _ => exact absurd h (by simp)

theorem matchDateShape_of_shape {d : Str} (h : dateShapeB d = true) (r : Str) :
    matchDateShape (d ++ r) = some (d, r) := by
  unfold dateShapeB at h
  split at h
  case _ d1 d2 d3 d4 h1 m1 m2 h2 e1 e2 => simp [matchDateShape, h]
  case _ => exact absurd h (by simp)

theorem dateShapeB_head {d : Str} (h : dateShapeB d = true) :
    ∃ c cs, d = c :: cs ∧ isDigitChar c = true := by
  unfold dateShapeB at h
  split at h
  case _ d1 d2 d3 d4 h1 m1 m2 h2 e1 e2 =>
    refine ⟨d1, _, rfl, ?_⟩
    simp only [Bool.and_eq_true] at h
    exact h.1.1.1.1.1.1.1.1.1
  case _ => exact absurd h (by simp)

/-! ## The due-date scanner against the boundary-aware specification -/

theorem specScan_nil (prev : Option Char) : specScan prev [] = none := rfl

theorem specScan_cons (prev : Option Char) (c : Char) (rest : Str) :
    specScan prev (c :: rest) =
      (match matchDateShape (c :: rest) with
       | some (d, after) =>
         if boundaryBeforeOf prev && boundaryAfter after then some d else none
       | none => none).orElse (fun _ => specScan (some c) rest) := by
  unfold specScan
  rw [List.length_cons, List.range_succ_eq_map, List.findSome?_cons]
  have hshift :
      ((List.range rest.length).map Nat.succ).findSome? (fun i =>
        match matchDateShape ((c :: rest).drop i) with
        | some (d, after) =>
          if boundaryBeforeOf (match i with | 0 => prev | j + 1 => (c :: rest)[j]?) &&
              boundaryAfter after then some d
          else none
        | none => none) =
      (List.range rest.length).findSome? (fun i =>
        match matchDateShape (rest.drop i) with
        | some (d, after) =>
          if boundaryBeforeOf (match i with | 0 => some c | j + 1 => rest[j]?) &&
              boundaryAfter after then some d
          else none
        | none => none) := by
    rw [List.findSome?_map]
    refine congrFun (congrArg List.findSome? ?_) _
    funext i
    simp only [Function.comp]
    cases i with
    | zero => simp
    | succ j => simp
  rw [hshift]
  simp only [List.drop_zero]
  cases hm : matchDateShape (c :: rest) with
  | none => simp [hm, Option.orElse, specScan]
  | some pair =>
    obtain ⟨d, after⟩ := pair
    cases hb1 : boundaryBeforeOf prev <;> cases hb2 : boundaryAfter after <;>
      simp [hm, hb1, hb2, Option.orElse, specScan]

theorem findDateAux_eq (l : Str) : ∀ prev : Option Char,
    findDateAux (prevIsWord prev) l = specScan prev l := by
  induction l with
  | nil => intro prev; rfl
  | cons c rest ih =>
    intro prev
    rw [specScan_cons]
    have hb : ∀ p : Option Char, (!prevIsWord p) = boundaryBeforeOf p := by
      intro p; cases p <;> rfl
    have hiw : prevIsWord (some c) = isWordChar c := rfl
    unfold findDateAux
    cases hm : matchDateShape (c :: rest) with
    | none =>
      simpa using (hiw ▸ ih (some c))
    | some pair =>
      cases pair with
      | mk d after =>
        rw [← hb prev]
        cases hcond : (!prevIsWord prev) && boundaryAfter after with
        | true => simp [hcond]
        | false => simpa [hcond] using (hiw ▸ ih (some c))

/-- C5 (amended): the parsed due date is the first `YYYY-MM-DD`-shaped
substring of the raw text that stands at word boundaries — neither immediately
preceded nor immediately followed by an ASCII letter, digit or underscore —
independent of the owner patterns; it is absent when no such substring exists. -/
theorem extractDueDate_eq_specDueDate (l : Str) : extractDueDate l = specDueDate l :=
  findDateAux_eq l none

/-- C5 counterexample: the raw text x2024-01-02 contains the
`YYYY-MM-DD`-shaped substring 2024-01-02, yet the parser extracts no due date,
because the substring is immediately preceded by the word character x — the
claim without the word-boundary condition is false. -/
theorem due_date_claim_counterexample :
    specFirstDateSub "x2024-01-02".toList = some "2024-01-02".toList ∧
      extractDueDate "x2024-01-02".toList = none := by
  constructor <;> rfl

/-! ## Owner / strip matchers against the decomposition specifications -/

theorem dropWhile_head_not {α : Type} {p : α → Bool} :
    ∀ (l : List α) (c : α), (l.dropWhile p).head? = some c → p c = false := by
  intro l
  induction l with
  | nil => simp
  | cons x xs ih =>
    intro c h
    by_cases hx : p x = true
    · rw [List.dropWhile_cons, if_pos hx] at h
      exact ih c h
    · rw [List.dropWhile_cons, if_neg hx] at h
      simp only [List.head?_cons, Option.some.injEq] at h
      subst h
      exact Bool.not_eq_true _ ▸ hx

theorem wsRun_head {l : Str} (h : wsRun l) :
    ∃ w t, l = w :: t ∧ jsWhitespace w = true := by
  obtain ⟨hne, hall⟩ := h
  cases l with
  | nil => exact absurd rfl hne
  | cons w t => exact ⟨w, t, rfl, hall w (by simp)⟩

theorem skipWs1_eq_some {l r : Str} (h : skipWs1 l = some r) :
    ∃ ws, l = ws ++ r ∧ wsRun ws ∧ ∀ c, r.head? = some c → jsWhitespace c = false := by
  unfold skipWs1 at h
  split at h
  case isTrue => exact absurd h (by simp)
  case isFalse hne =>
    rw [Option.some.injEq] at h
    subst h
    refine ⟨l.takeWhile jsWhitespace, ?_, ⟨by simpa using hne, ?_⟩, ?_⟩
    · exact (List.takeWhile_append_dropWhile ..).symm
    · intro c hc
      exact List.mem_takeWhile_imp hc
    · exact dropWhile_head_not l

theorem skipWs1_app {ws r : Str} (hws : wsRun ws)
    (hr : ∀ c, r.head? = some c → jsWhitespace c = false) : skipWs1 (ws ++ r) = some r := by
  unfold skipWs1
  rw [takeWhile_app hws.2 hr, dropWhile_app hws.2 hr, if_neg (by simpa using hws.1)]

theorem cons_head_not {c : Char} {t : Str} {p : Char → Bool} (hc : p c = false) :
    ∀ x : Char, (c :: t).head? = some x → p x = false := by
  intro x hx
  simp only [List.head?_cons, Option.some.injEq] at hx
  subst hx
  exact hc

theorem zhOwnerMatch_iff (raw o : Str) :
    zhOwnerMatch raw = some o ↔ ZhOwnerSpec raw o := by
  constructor
  · intro h
    unfold zhOwnerMatch at h
    split at h
    case isTrue => exact absurd h (by simp)
    case isFalse hne =>
      split at h
      case _ r3 hskip1 =>
        split at h
        case _ r4 hskip2 =>
          split at h
          case isTrue hdate =>
            rw [Option.some.injEq] at h
            rw [h] at hne
            obtain ⟨ws1, hws1eq, hws1run, _⟩ := skipWs1_eq_some hskip1
            obtain ⟨ws2, hws2eq, hws2run, _⟩ := skipWs1_eq_some hskip2
            obtain ⟨⟨d, rest⟩, hd⟩ := Option.isSome_iff_exists.mp hdate
            obtain ⟨hr4, hshape⟩ := matchDateShape_some hd
            refine ⟨ws1, ws2, d, rest, ?_, by simpa using hne, ?_, hws1run, hws2run, hshape⟩
            · conv_lhs => rw [← List.takeWhile_append_dropWhile (p := ownerCharZh) (l := raw)]
              rw [hws1eq, hws2eq, hr4, h]
              simp [List.append_assoc]
            · intro c hc
              rw [← h] at hc
              exact List.mem_takeWhile_imp hc
          case isFalse => exact absurd h (by simp)
        case _ => exact absurd h (by simp)
      case _ x hx => exact absurd h (by simp)
  · rintro ⟨ws1, ws2, d, rest, hraw, hne, hown, hws1, hws2, hshape⟩
    subst hraw
    obtain ⟨w1, t1, hw1, hwsw1⟩ := wsRun_head hws1
    obtain ⟨dc, dcs, hdc, hdigit⟩ := dateShapeB_head hshape
    have hassoc : o ++ ws1 ++ '在' :: (ws2 ++ d ++ rest) =
        o ++ (ws1 ++ '在' :: (ws2 ++ d ++ rest)) := by
      simp [List.append_assoc]
    have hbhead : ∀ c : Char, (ws1 ++ '在' :: (ws2 ++ d ++ rest)).head? = some c →
        ownerCharZh c = false := by
      rw [hw1]
      exact cons_head_not (ws_not_ownerCharZh hwsw1)
    have htake : (o ++ (ws1 ++ '在' :: (ws2 ++ d ++ rest))).takeWhile ownerCharZh = o :=
      takeWhile_app hown hbhead
    have hdrop : (o ++ (ws1 ++ '在' :: (ws2 ++ d ++ rest))).dropWhile ownerCharZh =
        ws1 ++ '在' :: (ws2 ++ d ++ rest) :=
      dropWhile_app hown hbhead
    have hskip1 : skipWs1 (ws1 ++ '在' :: (ws2 ++ d ++ rest)) =
        some ('在' :: (ws2 ++ d ++ rest)) :=
      skipWs1_app hws1 (cons_head_not (by decide))
    have hdr : ws2 ++ d ++ rest = ws2 ++ (d ++ rest) := by simp [List.append_assoc]
    have hbdate : ∀ c : Char, (d ++ rest).head? = some c → jsWhitespace c = false := by
      rw [hdc]
      exact cons_head_not (digit_not_ws hdigit)
    have hskip2 : skipWs1 (ws2 ++ d ++ rest) = some (d ++ rest) := by
      rw [hdr]
      exact skipWs1_app hws2 hbdate
    have hmds : matchDateShape (d ++ rest) = some (d, rest) := matchDateShape_of_shape hshape rest
    rw [hassoc]
    unfold zhOwnerMatch
    rw [htake, hdrop, if_neg (by simpa using hne), hskip1]
    simp only [hskip2, hmds, Option.isSome_some, if_true]

theorem lowerAscii_not_ws {b t : Char} (hb : lowerAscii b = t)
    (ht : jsWhitespace t = false) : jsWhitespace b = false := by
  unfold lowerAscii at hb
  split at hb
  case isTrue h =>
    simp only [jsWhitespace, decide_eq_false_iff_not]
    omega
  case isFalse => subst hb; exact ht

theorem enOwnerMatch_iff (raw o : Str) :
    enOwnerMatch raw = some o ↔ EnOwnerSpec raw o := by
  constructor
  · intro h
    unfold enOwnerMatch at h
    split at h
    case _ => exact absurd h (by simp)
    case _ c cs =>
      split at h
      case isFalse => exact absurd h (by simp)
      case isTrue hletter =>
        split at h
        case _ b y r3 hskip1 =>
          split at h
          case isFalse => exact absurd h (by simp)
          case isTrue hby =>
            split at h
            case _ r4 hskip2 =>
              split at h
              case isTrue hdate =>
                rw [Option.some.injEq] at h
                obtain ⟨ws1, hws1eq, hws1run, _⟩ := skipWs1_eq_some hskip1
                obtain ⟨ws2, hws2eq, hws2run, _⟩ := skipWs1_eq_some hskip2
                obtain ⟨⟨d, rest⟩, hd⟩ := Option.isSome_iff_exists.mp hdate
                obtain ⟨hr4, hshape⟩ := matchDateShape_some hd
                rw [Bool.and_eq_true] at hby
                refine ⟨c, cs.takeWhile isWordDash, ws1, b, y, ws2, d, rest, ?_, h.symm,
                  hletter, ?_, hws1run, by simpa using hby.1, by simpa using hby.2,
                  hws2run, hshape⟩
                · conv_lhs =>
                    rw [show (c :: cs : Str) =
                      c :: (cs.takeWhile isWordDash ++ cs.dropWhile isWordDash) by
                        rw [List.takeWhile_append_dropWhile]]
                  rw [hws1eq, hws2eq, hr4]
                  simp [List.append_assoc]
                · intro x hx
                  exact List.mem_takeWhile_imp hx
              case isFalse => exact absurd h (by simp)
            case _ => exact absurd h (by simp)
        case _ x hx => exact absurd h (by simp)
  · rintro ⟨c, tl, ws1, b, y, ws2, d, rest, hraw, ho, hc, htl, hws1, hb, hy, hws2, hshape⟩
    subst hraw
    subst ho
    obtain ⟨w1, t1, hw1, hwsw1⟩ := wsRun_head hws1
    obtain ⟨dc, dcs, hdc, hdigit⟩ := dateShapeB_head hshape
    have hbhead : ∀ x : Char, (ws1 ++ b :: y :: (ws2 ++ d ++ rest)).head? = some x →
        isWordDash x = false := by
      rw [hw1]
      exact cons_head_not (ws_not_wordDash hwsw1)
    have hcs : (tl ++ ws1 ++ b :: y :: (ws2 ++ d ++ rest) : Str) =
        tl ++ (ws1 ++ b :: y :: (ws2 ++ d ++ rest)) := by
      simp [List.append_assoc]
    have htake : (tl ++ (ws1 ++ b :: y :: (ws2 ++ d ++ rest))).takeWhile isWordDash = tl :=
      takeWhile_app htl hbhead
    have hdrop : (tl ++ (ws1 ++ b :: y :: (ws2 ++ d ++ rest))).dropWhile isWordDash =
        ws1 ++ b :: y :: (ws2 ++ d ++ rest) :=
      dropWhile_app htl hbhead
    have hskip1 : skipWs1 (ws1 ++ b :: y :: (ws2 ++ d ++ rest)) =
        some (b :: y :: (ws2 ++ d ++ rest)) :=
      skipWs1_app hws1 (cons_head_not (lowerAscii_not_ws hb (by decide)))
    have hdr : ws2 ++ d ++ rest = ws2 ++ (d ++ rest) := by simp [List.append_assoc]
    have hbdate : ∀ x : Char, (d ++ rest).head? = some x → jsWhitespace x = false := by
      rw [hdc]
      exact cons_head_not (digit_not_ws hdigit)
    have hskip2 : skipWs1 (ws2 ++ d ++ rest) = some (d ++ rest) := by
      rw [hdr]
      exact skipWs1_app hws2 hbdate
    have hmds : matchDateShape (d ++ rest) = some (d, rest) := matchDateShape_of_shape hshape rest
    have hcons : ((c :: tl : Str) ++ ws1 ++ b :: y :: (ws2 ++ d ++ rest)) =
        c :: (tl ++ (ws1 ++ b :: y :: (ws2 ++ d ++ rest))) := by
      simp [List.append_assoc]
    rw [hcons]
    simp only [enOwnerMatch]
    rw [if_pos hc, hdrop, hskip1]
    simp only [hb, hy, beq_self_eq_true, Bool.and_self, if_true, hskip2, hmds,
      Option.isSome_some, htake]

theorem zhStrip_iff (raw rest : Str) :
    zhStrip raw = some rest ↔ ZhStripSpec raw rest := by
  constructor
  · intro h
    unfold zhStrip at h
    split at h
    case isTrue => exact absurd h (by simp)
    case isFalse hne =>
      split at h
      case _ r3 hskip1 =>
        split at h
        case _ r4 hskip2 =>
          split at h
          case _ d r5 hmds =>
            split at h
            case _ tl hskip3 =>
              rw [Option.some.injEq] at h
              obtain ⟨ws1, hws1eq, hws1run, _⟩ := skipWs1_eq_some hskip1
              obtain ⟨ws2, hws2eq, hws2run, _⟩ := skipWs1_eq_some hskip2
              obtain ⟨ws3, hws3eq, hws3run, _⟩ := skipWs1_eq_some hskip3
              obtain ⟨hr4, hshape⟩ := matchDateShape_some hmds
              refine ⟨raw.takeWhile ownerCharZh, ws1, ws2, d, ws3, ['前'],
                tl.takeWhile jsWhitespace, ?_, by simpa using hne, ?_, hws1run, hws2run,
                hshape, hws3run, Or.inr rfl, ?_, ?_⟩
              · conv_lhs =>
                  rw [← List.takeWhile_append_dropWhile (p := ownerCharZh) (l := raw)]
                rw [hws1eq, hws2eq, hr4, hws3eq,
                  show tl = tl.takeWhile jsWhitespace ++ tl.dropWhile jsWhitespace from
                    (List.takeWhile_append_dropWhile ..).symm, h]
                simp [List.append_assoc]
                rw [takeWhile_app (fun x hx => List.mem_takeWhile_imp hx)
                  (fun c hc => by rw [← h] at hc; exact dropWhile_head_not tl c hc)]
              · intro x hx
                exact List.mem_takeWhile_imp hx
              · intro x hx
                exact List.mem_takeWhile_imp hx
              · rw [← h]
                exact dropWhile_head_not tl
            case _ tl hskip3 =>
              rw [Option.some.injEq] at h
              obtain ⟨ws1, hws1eq, hws1run, _⟩ := skipWs1_eq_some hskip1
              obtain ⟨ws2, hws2eq, hws2run, _⟩ := skipWs1_eq_some hskip2
              obtain ⟨ws3, hws3eq, hws3run, _⟩ := skipWs1_eq_some hskip3
              obtain ⟨hr4, hshape⟩ := matchDateShape_some hmds
              refine ⟨raw.takeWhile ownerCharZh, ws1, ws2, d, ws3, [],
                tl.takeWhile jsWhitespace, ?_, by simpa using hne, ?_, hws1run, hws2run,
                hshape, hws3run, Or.inl rfl, ?_, ?_⟩
              · conv_lhs =>
                  rw [← List.takeWhile_append_dropWhile (p := ownerCharZh) (l := raw)]
                rw [hws1eq, hws2eq, hr4, hws3eq,
                  show tl = tl.takeWhile jsWhitespace ++ tl.dropWhile jsWhitespace from
                    (List.takeWhile_append_dropWhile ..).symm, h]
                simp [List.append_assoc]
                rw [takeWhile_app (fun x hx => List.mem_takeWhile_imp hx)
                  (fun c hc => by rw [← h] at hc; exact dropWhile_head_not tl c hc)]
              · intro x hx
                exact List.mem_takeWhile_imp hx
              · intro x hx
                exact List.mem_takeWhile_imp hx
              · rw [← h]
                exact dropWhile_head_not tl
            case _ hne1 hne2 => exact absurd h (by simp)
          case _ => exact absurd h (by simp)
        case _ => exact absurd h (by simp)
      case _ x hx => exact absurd h (by simp)
  · rintro ⟨o, ws1, ws2, d, ws3, q, ws4, hraw, hne, hown, hws1, hws2, hshape, hws3, hq,
      hws4, hrest⟩
    subst hraw
    obtain ⟨w1, t1, hw1, hwsw1⟩ := wsRun_head hws1
    obtain ⟨dc, dcs, hdc, hdigit⟩ := dateShapeB_head hshape
    have hqhead : ∀ x : Char, (q ++ '完' :: '成' :: (ws4 ++ rest)).head? = some x →
        jsWhitespace x = false := by
      rcases hq with hq | hq <;> subst hq
      · exact cons_head_not (by decide)
      · exact cons_head_not (by decide)
    have hbody : ws2 ++ d ++ ws3 ++ q ++ '完' :: '成' :: (ws4 ++ rest) =
        ws2 ++ (d ++ (ws3 ++ (q ++ '完' :: '成' :: (ws4 ++ rest)))) := by
      simp [List.append_assoc]
    have hbhead : ∀ x : Char,
        (ws1 ++ '在' :: (ws2 ++ d ++ ws3 ++ q ++ '完' :: '成' :: (ws4 ++ rest))).head? =
          some x → ownerCharZh x = false := by
      rw [hw1]
      exact cons_head_not (ws_not_ownerCharZh hwsw1)
    have hassoc : o ++ ws1 ++ '在' :: (ws2 ++ d ++ ws3 ++ q ++ '完' :: '成' :: (ws4 ++ rest)) =
        o ++ (ws1 ++ '在' :: (ws2 ++ d ++ ws3 ++ q ++ '完' :: '成' :: (ws4 ++ rest))) := by
      simp [List.append_assoc]
    have htake := takeWhile_app hown hbhead
    have hdrop := dropWhile_app hown hbhead
    have hskip1 : skipWs1 (ws1 ++ '在' :: (ws2 ++ d ++ ws3 ++ q ++ '完' :: '成' ::
        (ws4 ++ rest))) = some ('在' :: (ws2 ++ d ++ ws3 ++ q ++ '完' :: '成' ::
        (ws4 ++ rest))) :=
      skipWs1_app hws1 (cons_head_not (by decide))
    have hbdate : ∀ x : Char,
        (d ++ (ws3 ++ (q ++ '完' :: '成' :: (ws4 ++ rest)))).head? = some x →
          jsWhitespace x = false := by
      rw [hdc]
      exact cons_head_not (digit_not_ws hdigit)
    have hskip2 : skipWs1 (ws2 ++ d ++ ws3 ++ q ++ '完' :: '成' :: (ws4 ++ rest)) =
        some (d ++ (ws3 ++ (q ++ '完' :: '成' :: (ws4 ++ rest)))) := by
      rw [hbody]
      exact skipWs1_app hws2 hbdate
    have hmds : matchDateShape (d ++ (ws3 ++ (q ++ '完' :: '成' :: (ws4 ++ rest)))) =
        some (d, ws3 ++ (q ++ '完' :: '成' :: (ws4 ++ rest))) :=
      matchDateShape_of_shape hshape _
    have hskip3 : skipWs1 (ws3 ++ (q ++ '完' :: '成' :: (ws4 ++ rest))) =
        some (q ++ '完' :: '成' :: (ws4 ++ rest)) :=
      skipWs1_app hws3 hqhead
    have hdroptl : (ws4 ++ rest).dropWhile jsWhitespace = rest :=
      dropWhile_app hws4 hrest
    rw [hassoc]
    unfold zhStrip
    rw [htake, hdrop, if_neg (by simpa using hne), hskip1]
    simp only [hskip2, hmds, hskip3]
    rcases hq with hq | hq <;> subst hq <;> simp [hdroptl]

theorem enStrip_iff (raw rest : Str) :
    enStrip raw = some rest ↔ EnStripSpec raw rest := by
  constructor
  · intro h
    unfold enStrip at h
    split at h
    case _ => exact absurd h (by simp)
    case _ c cs =>
      split at h
      case isFalse => exact absurd h (by simp)
      case isTrue hletter =>
        split at h
        case _ b y r3 hskip1 =>
          split at h
          case isFalse => exact absurd h (by simp)
          case isTrue hby =>
            split at h
            case _ r4 hskip2 =>
              split at h
              case _ d r5 hmds =>
                obtain ⟨ws1, hws1eq, hws1run, _⟩ := skipWs1_eq_some hskip1
                obtain ⟨ws2, hws2eq, hws2run, _⟩ := skipWs1_eq_some hskip2
                obtain ⟨ws3, hws3eq, hws3run, hr⟩ := skipWs1_eq_some h
                obtain ⟨hr4, hshape⟩ := matchDateShape_some hmds
                rw [Bool.and_eq_true] at hby
                refine ⟨c, cs.takeWhile isWordDash, ws1, b, y, ws2, d, ws3, ?_, hletter, ?_,
                  hws1run, by simpa using hby.1, by simpa using hby.2, hws2run, hshape,
                  hws3run, hr⟩
                · conv_lhs =>
                    rw [show (c :: cs : Str) =
                      c :: (cs.takeWhile isWordDash ++ cs.dropWhile isWordDash) by
                        rw [List.takeWhile_append_dropWhile]]
                  rw [hws1eq, hws2eq, hr4, hws3eq]
                  simp [List.append_assoc]
                · intro x hx
                  exact List.mem_takeWhile_imp hx
              case _ => exact absurd h (by simp)
            case _ => exact absurd h (by simp)
        case _ x hx => exact absurd h (by simp)
  · rintro ⟨c, tl, ws1, b, y, ws2, d, ws3, hraw, hc, htl, hws1, hb, hy, hws2, hshape,
      hws3, hrest⟩
    subst hraw
    obtain ⟨w1, t1, hw1, hwsw1⟩ := wsRun_head hws1
    obtain ⟨dc, dcs, hdc, hdigit⟩ := dateShapeB_head hshape
    have hbhead : ∀ x : Char, (ws1 ++ b :: y :: (ws2 ++ d ++ ws3 ++ rest)).head? = some x →
        isWordDash x = false := by
      rw [hw1]
      exact cons_head_not (ws_not_wordDash hwsw1)
    have htake : (tl ++ (ws1 ++ b :: y :: (ws2 ++ d ++ ws3 ++ rest))).takeWhile isWordDash =
        tl :=
      takeWhile_app htl hbhead
    have hdrop : (tl ++ (ws1 ++ b :: y :: (ws2 ++ d ++ ws3 ++ rest))).dropWhile isWordDash =
        ws1 ++ b :: y :: (ws2 ++ d ++ ws3 ++ rest) :=
      dropWhile_app htl hbhead
    have hskip1 : skipWs1 (ws1 ++ b :: y :: (ws2 ++ d ++ ws3 ++ rest)) =
        some (b :: y :: (ws2 ++ d ++ ws3 ++ rest)) :=
      skipWs1_app hws1 (cons_head_not (lowerAscii_not_ws hb (by decide)))
    have hdr : ws2 ++ d ++ ws3 ++ rest = ws2 ++ (d ++ (ws3 ++ rest)) := by
      simp [List.append_assoc]
    have hbdate : ∀ x : Char, (d ++ (ws3 ++ rest)).head? = some x →
        jsWhitespace x = false := by
      rw [hdc]
      exact cons_head_not (digit_not_ws hdigit)
    have hskip2 : skipWs1 (ws2 ++ d ++ ws3 ++ rest) = some (d ++ (ws3 ++ rest)) := by
      rw [hdr]
      exact skipWs1_app hws2 hbdate
    have hmds : matchDateShape (d ++ (ws3 ++ rest)) = some (d, ws3 ++ rest) :=
      matchDateShape_of_shape hshape _
    have hskip3 : skipWs1 (ws3 ++ rest) = some rest :=
      skipWs1_app hws3 hrest
    have hcons : ((c :: tl : Str) ++ ws1 ++ b :: y :: (ws2 ++ d ++ ws3 ++ rest)) =
        c :: (tl ++ (ws1 ++ b :: y :: (ws2 ++ d ++ ws3 ++ rest))) := by
      simp [List.append_assoc]
    rw [hcons]
    simp only [enStrip]
    rw [if_pos hc, hdrop, hskip1]
    simp only [hb, hy, beq_self_eq_true, Bool.and_self, if_true, hskip2, hmds, hskip3]

/-! ## Trimming lemmas -/

theorem dropWhile_eq_self_of_head {α : Type} {p : α → Bool} {l : List α}
    (h : ∀ c, l.head? = some c → p c = false) : l.dropWhile p = l := by
  cases l with
  | nil => rfl
  | cons x xs => rw [List.dropWhile_cons, if_neg (by simp [h x rfl])]

theorem dropWhile_eq_self_head {α : Type} {p : α → Bool} {x : α} {t : List α}
    (h : (x :: t).dropWhile p = x :: t) : p x = false := by
  by_contra hpx
  rw [Bool.not_eq_false] at hpx
  rw [List.dropWhile_cons, if_pos hpx] at h
  have hlen := congrArg List.length h
  have hle := (List.dropWhile_suffix p (l := t)).sublist.length_le
  simp only [List.length_cons] at hlen
  omega

theorem trim_pieces {raw : Str} (htrim : jsTrim raw = raw) :
    raw.dropWhile jsWhitespace = raw ∧ raw.reverse.dropWhile jsWhitespace = raw.reverse := by
  unfold jsTrim at htrim
  have hlenB := congrArg List.length htrim
  have hle1 := (List.dropWhile_suffix jsWhitespace (l := raw)).sublist.length_le
  have hle2 := (List.dropWhile_suffix jsWhitespace
    (l := (raw.dropWhile jsWhitespace).reverse)).sublist.length_le
  simp only [List.length_reverse] at hlenB hle2
  have hA : (raw.dropWhile jsWhitespace).length = raw.length := by omega
  have hAeq : raw.dropWhile jsWhitespace = raw :=
    (List.dropWhile_suffix jsWhitespace).eq_of_length hA
  refine ⟨hAeq, ?_⟩
  rw [hAeq] at htrim
  have : raw.reverse.dropWhile jsWhitespace = raw.reverse := by
    conv_rhs => rw [← htrim]
    rw [List.reverse_reverse]
  exact this

theorem trim_rest {raw rest : Str} (pre : Str) (htrim : jsTrim raw = raw)
    (hsplit : raw = pre ++ rest)
    (hhead : ∀ c, rest.head? = some c → jsWhitespace c = false) : jsTrim rest = rest := by
  obtain ⟨h1, h2⟩ := trim_pieces htrim
  unfold jsTrim
  rw [dropWhile_eq_self_of_head hhead]
  cases hr : rest.reverse with
  | nil =>
    have : rest = [] := by simpa using congrArg List.reverse hr
    subst this
    rfl
  | cons x xs =>
    have hrev : raw.reverse = x :: (xs ++ pre.reverse) := by
      rw [hsplit, List.reverse_append, hr, List.cons_append]
    rw [hrev] at h2
    have hx : jsWhitespace x = false := dropWhile_eq_self_head h2
    rw [List.dropWhile_cons, if_neg (by simp [hx]), ← hr, List.reverse_reverse]

theorem zhOwnerMatch_none {raw : Str} (h : ∀ o, ¬ZhOwnerSpec raw o) :
    zhOwnerMatch raw = none := by
  cases hz : zhOwnerMatch raw with
  | none => rfl
  | some o => exact absurd ((zhOwnerMatch_iff raw o).mp hz) (h o)

theorem enOwnerMatch_none {raw : Str} (h : ∀ o, ¬EnOwnerSpec raw o) :
    enOwnerMatch raw = none := by
  cases hz : enOwnerMatch raw with
  | none => rfl
  | some o => exact absurd ((enOwnerMatch_iff raw o).mp hz) (h o)

theorem zhStrip_none {raw : Str} (h : ∀ r, ¬ZhStripSpec raw r) : zhStrip raw = none := by
  cases hz : zhStrip raw with
  | none => rfl
  | some r => exact absurd ((zhStrip_iff raw r).mp hz) (h r)

theorem enStrip_none {raw : Str} (h : ∀ r, ¬EnStripSpec raw r) : enStrip raw = none := by
  cases hz : enStrip raw with
  | none => rfl
  | some r => exact absurd ((enStrip_iff raw r).mp hz) (h r)

/-- C6: for every (trimmed) task raw text, the parser tries the Chinese
leading pattern first and then the English one (case-insensitive), the owner
is the captured token of the first pattern that matches (absent when neither
does); the description is the raw text with the full leading
owner-at-date-finish (Chinese) or owner-by-date-blank (English) head
stripped, and equals the raw text when neither strip applies. -/
theorem owner_description_parsing (raw : Str) (htrim : jsTrim raw = raw) :
    OwnerDescriptionSpec raw := by
  refine ⟨?_, ?_, ?_, ?_, ?_, ?_⟩
  · intro o h
    have hz := (zhOwnerMatch_iff raw o).mpr h
    simp only [extractOwner, hz]
  · intro o hen hnzh
    have hz := zhOwnerMatch_none hnzh
    simp only [extractOwner, hz]
    exact (enOwnerMatch_iff raw o).mpr hen
  · intro hnzh hnen
    simp only [extractOwner, zhOwnerMatch_none hnzh]
    exact enOwnerMatch_none hnen
  · intro rest h
    have hz := (zhStrip_iff raw rest).mpr h
    simp only [extractTaskDescription, hz]
    obtain ⟨o, ws1, ws2, d, ws3, q, ws4, hraw, _, _, _, _, _, _, _, _, hrest⟩ := h
    refine trim_rest (o ++ ws1 ++ '在' ::
      (ws2 ++ d ++ ws3 ++ q ++ '完' :: '成' :: ws4)) htrim ?_ hrest
    rw [hraw]
    simp [List.append_assoc]
  · intro rest hen hnzh
    have hz := zhStrip_none hnzh
    have he := (enStrip_iff raw rest).mpr hen
    simp only [extractTaskDescription, hz, he]
    obtain ⟨c, tl, ws1, b, y, ws2, d, ws3, hraw, _, _, _, _, _, _, _, _, hrest⟩ := hen
    refine trim_rest ((c :: tl) ++ ws1 ++ b :: y :: (ws2 ++ d ++ ws3)) htrim ?_ hrest
    rw [hraw]
    simp [List.append_assoc]
  · intro hnzh hnen
    simp only [extractTaskDescription, zhStrip_none hnzh, enStrip_none hnen]
    exact htrim

/-- Closed witness for the parsing theorem: the spec example task line. -/
theorem owner_description_parsing_witness :
    jsTrim "李雷 在 2026-02-25 前完成 发布公告".toList = "李雷 在 2026-02-25 前完成 发布公告".toList ∧
      OwnerDescriptionSpec "李雷 在 2026-02-25 前完成 发布公告".toList :=
  ⟨by decide, owner_description_parsing _ (by decide)⟩

/-! ## The dispatch card -/

/-- C8: the dispatch card has card type "meeting_dispatch", counts equal to
the confirmed and pending list lengths, and items rendering the first 8
confirmed tasks in order: the n-th item (1-based) carries the synthesized id
meetingId-task-n, the task description as title (raw text when the
description is empty), the task's optional owner and due date, and exactly
the actions accept, ignore, reschedule. -/
theorem buildPostMeetingCard_spec (mid : Str) (tasks : List MeetingTask)
    (pending : List PendingConfirmation) :
    (buildPostMeetingCard mid tasks pending).card_type = "meeting_dispatch".toList ∧
    (buildPostMeetingCard mid tasks pending).task_count = tasks.length ∧
    (buildPostMeetingCard mid tasks pending).pending_count = pending.length ∧
    (buildPostMeetingCard mid tasks pending).items.length = min 8 tasks.length ∧
    ∀ i, i < (buildPostMeetingCard mid tasks pending).items.length →
      ∃ t, tasks[i]? = some t ∧
        (buildPostMeetingCard mid tasks pending).items[i]? = some
          { recommendation_id := mid ++ "-task-".toList ++ (Nat.repr (i + 1)).toList
            title := if t.description = [] then t.text else t.description
            owner := t.owner
            due_at := t.due_at
            actions := ["accept".toList, "ignore".toList, "reschedule".toList] } := by
  refine ⟨rfl, rfl, rfl, ?_, ?_⟩
  · simp [buildPostMeetingCard]
  · intro i h
    have hItems : i < (buildPostMeetingCard mid tasks pending).items.length := h
    simp only [buildPostMeetingCard, List.length_mapIdx, List.length_take] at h
    have hti : i < tasks.length := lt_of_lt_of_le h (min_le_right 8 tasks.length)
    refine ⟨tasks[i], List.getElem?_eq_getElem hti, ?_⟩
    rw [List.getElem?_eq_getElem hItems, Option.some.injEq]
    simp only [buildPostMeetingCard, List.getElem_mapIdx, List.getElem_take]
    by_cases hd : tasks[i].description = []
    · simp only [hd, List.isEmpty_nil, if_true, if_pos rfl]
      rfl
    · rw [if_neg hd, if_neg (by simpa [List.isEmpty_iff] using hd)]
      rfl

/-- Closed witness for the dispatch-card theorem at a one-task input. -/
theorem buildPostMeetingCard_spec_witness :
    0 < (buildPostMeetingCard ['m'] [⟨['t'], [], none, none⟩] []).items.length ∧
    (∃ t, ([⟨['t'], [], none, none⟩] : List MeetingTask)[0]? = some t ∧
      (buildPostMeetingCard ['m'] [⟨['t'], [], none, none⟩] []).items[0]? = some
        { recommendation_id := ['m'] ++ "-task-".toList ++ (Nat.repr (0 + 1)).toList
          title := if t.description = [] then t.text else t.description
          owner := t.owner
          due_at := t.due_at
          actions := ["accept".toList, "ignore".toList, "reschedule".toList] }) :=
  ⟨by decide,
    (buildPostMeetingCard_spec ['m'] [⟨['t'], [], none, none⟩] []).2.2.2.2 0 (by decide)⟩

/-! ## The chunk loop -/

theorem runChunksFrom_fst (st : EngineState) (idx : Nat) (chunks : List Str) :
    (runChunksFrom st idx chunks).1 = chunks.foldl processChunk st := by
  induction chunks generalizing st idx with
  | nil => rfl
  | cons c cs ih => simp only [runChunksFrom, List.foldl_cons, ih, stepChunk]

theorem runChunksFrom_length (st : EngineState) (idx : Nat) (chunks : List Str) :
    (runChunksFrom st idx chunks).2.length = chunks.length := by
  induction chunks generalizing st idx with
  | nil => rfl
  | cons c cs ih => simp only [runChunksFrom, List.length_cons, ih]

theorem take_succ_foldl (chunks : List Str) (st : EngineState) (i : Nat) (c : Str)
    (hc : chunks[i]? = some c) :
    (chunks.take (i + 1)).foldl processChunk st =
      processChunk ((chunks.take i).foldl processChunk st) c := by
  rw [List.take_succ, hc]
  simp [List.foldl_append]

theorem runChunksFrom_get (st : EngineState) (idx : Nat) (chunks : List Str) :
    ∀ i c, chunks[i]? = some c →
      (runChunksFrom st idx chunks).2[i]? =
        some (stepChunk ((chunks.take i).foldl processChunk st) (idx + i) c).2 := by
  induction chunks generalizing st idx with
  | nil => intro i c hc; simp at hc
  | cons ch cs ih =>
    intro i c hc
    cases i with
    | zero =>
      simp only [List.getElem?_cons_zero, Option.some.injEq] at hc
      subst hc
      simp [runChunksFrom]
    | succ j =>
      simp only [List.getElem?_cons_succ] at hc
      simp only [runChunksFrom, List.getElem?_cons_succ]
      rw [ih (stepChunk st idx ch).1 (idx + 1) j c hc]
      simp only [stepChunk, List.take_succ_cons, List.foldl_cons]
      rw [show idx + 1 + j = idx + (j + 1) by omega]

theorem runChunksFrom_indices (st : EngineState) (idx : Nat) (chunks : List Str) :
    (runChunksFrom st idx chunks).2.map (fun u => u.chunk_index) =
      List.range' idx chunks.length := by
  induction chunks generalizing st idx with
  | nil => rfl
  | cons c cs ih =>
    simp only [runChunksFrom, List.map_cons, List.length_cons, List.range'_succ, ih, stepChunk]

/-- C4: the incremental update recorded for chunk i is exactly the record of
chunk index i, the net decision and task list-length deltas across that chunk
(which can be negative for tasks when the chunk evicts more than it confirms),
and the post-chunk totals. -/
theorem incremental_update_formula (ctx : WorkflowContext) (p : Payload) (i : Nat) (c : Str)
    (hc : (readTranscriptChunks p).chunks[i]? = some c) :
    (runMeetingExtractWorkflow ctx p).data.incremental_updates[i]? =
      some
        { chunk_index := i
          decisions_added :=
            (((((readTranscriptChunks p).chunks.take (i + 1)).foldl processChunk
              initState).decisions.length : Int) -
              ((((readTranscriptChunks p).chunks.take i).foldl processChunk
                initState).decisions.length : Int))
          tasks_added :=
            (((((readTranscriptChunks p).chunks.take (i + 1)).foldl processChunk
              initState).tasks.length : Int) -
              ((((readTranscriptChunks p).chunks.take i).foldl processChunk
                initState).tasks.length : Int))
          total_decisions :=
            ((((readTranscriptChunks p).chunks.take (i + 1)).foldl processChunk
              initState).decisions.length)
          total_tasks :=
            ((((readTranscriptChunks p).chunks.take (i + 1)).foldl processChunk
              initState).tasks.length) } := by
  have hget := runChunksFrom_get initState 0 (readTranscriptChunks p).chunks i c hc
  have hstep := take_succ_foldl (readTranscriptChunks p).chunks initState i c hc
  simp only [runMeetingExtractWorkflow, buildDryRunSuccessResult]
  rw [hget]
  simp only [stepChunk, hstep, Nat.zero_add]

/-- Closed witness for the incremental-update formula at a one-chunk payload. -/
theorem incremental_update_formula_witness :
    (readTranscriptChunks ⟨none, some "决策: a".toList, []⟩).chunks[0]? =
        some "决策: a".toList ∧
    (runMeetingExtractWorkflow ⟨[], [], [], []⟩ ⟨none, some "决策: a".toList, []⟩).data.incremental_updates[0]? =
      some
        { chunk_index := 0
          decisions_added :=
            (((((readTranscriptChunks ⟨none, some "决策: a".toList, []⟩).chunks.take 1).foldl
              processChunk initState).decisions.length : Int) -
              ((((readTranscriptChunks ⟨none, some "决策: a".toList, []⟩).chunks.take 0).foldl
                processChunk initState).decisions.length : Int))
          tasks_added :=
            (((((readTranscriptChunks ⟨none, some "决策: a".toList, []⟩).chunks.take 1).foldl
              processChunk initState).tasks.length : Int) -
              ((((readTranscriptChunks ⟨none, some "决策: a".toList, []⟩).chunks.take 0).foldl
                processChunk initState).tasks.length : Int))
          total_decisions :=
            ((((readTranscriptChunks ⟨none, some "决策: a".toList, []⟩).chunks.take 1).foldl
              processChunk initState).decisions.length)
          total_tasks :=
            ((((readTranscriptChunks ⟨none, some "决策: a".toList, []⟩).chunks.take 1).foldl
              processChunk initState).tasks.length) } :=
  ⟨by decide, incremental_update_formula ⟨[], [], [], []⟩ ⟨none, some "决策: a".toList, []⟩ 0
    "决策: a".toList (by decide)⟩

/-- C9: the engine is total by construction (it is a Lean function, and no
branch of the embedded source can fail); it always reports status success with
no errors, and a payload whose transcript resolves to no chunks — neither raw
text nor a non-empty stream, or whitespace-only text — yields a result whose
decision, task, pending and update collections are all empty and whose counts
are zero. -/
theorem empty_transcript_result (ctx : WorkflowContext) (p : Payload)
    (h : (readTranscriptChunks p).chunks = []) :
    (runMeetingExtractWorkflow ctx p).status = WorkflowStatus.success ∧
    (runMeetingExtractWorkflow ctx p).errors = [] ∧
    (runMeetingExtractWorkflow ctx p).data.decisions = [] ∧
    (runMeetingExtractWorkflow ctx p).data.tasks = [] ∧
    (runMeetingExtractWorkflow ctx p).data.pending_confirmations = [] ∧
    (runMeetingExtractWorkflow ctx p).data.incremental_updates = [] ∧
    (runMeetingExtractWorkflow ctx p).data.decision_count = 0 ∧
    (runMeetingExtractWorkflow ctx p).data.task_count = 0 := by
  simp [runMeetingExtractWorkflow, buildDryRunSuccessResult, h, runChunksFrom, initState]

/-- Closed witness for the empty-transcript theorem at a whitespace-only
payload. -/
theorem empty_transcript_result_witness :
    (readTranscriptChunks ⟨none, some "   ".toList, []⟩).chunks = [] ∧
    (runMeetingExtractWorkflow ⟨[], [], [], []⟩ ⟨none, some "   ".toList, []⟩).data.decisions = [] ∧
    (runMeetingExtractWorkflow ⟨[], [], [], []⟩ ⟨none, some "   ".toList, []⟩).data.task_count = 0 :=
  ⟨by decide,
    (empty_transcript_result ⟨[], [], [], []⟩ ⟨none, some "   ".toList, []⟩ (by decide)).2.2.1,
    (empty_transcript_result ⟨[], [], [], []⟩ ⟨none, some "   ".toList, []⟩ (by decide)).2.2.2.2.2.2.2⟩

theorem map_filter_normalize (l : List StreamItem) :
    (l.map normalizeStreamItem).filter (fun c => !c.isEmpty) =
      l.filterMap (fun it =>
        if normalizeStreamItem it = [] then none else some (normalizeStreamItem it)) := by
  induction l with
  | nil => rfl
  | cons x xs ih =>
    simp only [List.map_cons, List.filter_cons, List.filterMap_cons]
    by_cases hx : normalizeStreamItem x = []
    · simp [hx, ih]
    · rw [if_neg hx]
      simp only [List.isEmpty_iff, hx, Bool.not_false, if_true]
      simpa [hx] using congrArg (List.cons (normalizeStreamItem x)) ih

/-- C10: stream items that are not strings or text-objects, and items whose
trimmed text is empty, are dropped before processing; the chunk indices of the
incremental updates number the surviving chunks consecutively from 0, and the
transcript text is the surviving trimmed chunks joined by a newline. -/
theorem transcript_stream_normalization (ctx : WorkflowContext) (p : Payload)
    (h : p.transcript_stream ≠ []) :
    (readTranscriptChunks p).chunks =
      p.transcript_stream.filterMap (fun it =>
        if normalizeStreamItem it = [] then none else some (normalizeStreamItem it)) ∧
    (readTranscriptChunks p).text =
      List.intercalate ['\n'] (readTranscriptChunks p).chunks ∧
    (runMeetingExtractWorkflow ctx p).data.transcript_text = (readTranscriptChunks p).text ∧
    (runMeetingExtractWorkflow ctx p).data.incremental_updates.map
        (fun u => u.chunk_index) =
      List.range (readTranscriptChunks p).chunks.length := by
  have hne : p.transcript_stream.isEmpty = false := by
    simpa [List.isEmpty_iff] using h
  refine ⟨?_, ?_, rfl, ?_⟩
  · simp only [readTranscriptChunks, hne, Bool.false_eq_true, if_false]
    exact map_filter_normalize p.transcript_stream
  · simp only [readTranscriptChunks, hne, Bool.false_eq_true, if_false]
  · simp only [runMeetingExtractWorkflow, buildDryRunSuccessResult]
    rw [runChunksFrom_indices]
    exact (List.range_eq_range' _).symm

/-- Closed witness for the stream-normalization theorem: a stream with a bad
item, an empty-text item, and two real chunks. -/
theorem transcript_stream_normalization_witness :
    (⟨none, none, [StreamItem.badItem, StreamItem.strItem "  ".toList,
        StreamItem.strItem " a ".toList, StreamItem.objItem (some "b".toList)]⟩ :
      Payload).transcript_stream ≠ [] ∧
    (readTranscriptChunks ⟨none, none, [StreamItem.badItem, StreamItem.strItem "  ".toList,
        StreamItem.strItem " a ".toList, StreamItem.objItem (some "b".toList)]⟩).chunks =
      ([StreamItem.badItem, StreamItem.strItem "  ".toList, StreamItem.strItem " a ".toList,
        StreamItem.objItem (some "b".toList)]).filterMap (fun it =>
          if normalizeStreamItem it = [] then none else some (normalizeStreamItem it)) :=
  ⟨by decide,
    (transcript_stream_normalization ⟨[], [], [], []⟩ ⟨none, none,
      [StreamItem.badItem, StreamItem.strItem "  ".toList, StreamItem.strItem " a ".toList,
        StreamItem.objItem (some "b".toList)]⟩ (by decide)).1⟩

/-! ## Idempotence of repeated chunks -/

theorem processDecision_seen_self (st : EngineState) (d : Str) :
    d ∈ (processDecision st d).seenDecision := by
  unfold processDecision
  split
  case isTrue h => exact h
  case isFalse h => exact List.mem_cons_self d _

theorem processTask_seen_self (st : EngineState) (t : MeetingTask) :
    t.text ∈ (processTask st t).seenTask := by
  unfold processTask
  split
  case isTrue h => exact h
  case isFalse h =>
    split
    · split
      · exact List.mem_cons_self _ _
      · exact List.mem_cons_self _ _
    · split
      · exact List.mem_cons_self _ _
      · exact List.mem_cons_self _ _

theorem processDecision_seen_mono (st : EngineState) (d : Str) :
    st.seenDecision ⊆ (processDecision st d).seenDecision ∧
      st.seenTask ⊆ (processDecision st d).seenTask := by
  unfold processDecision
  split
  · exact ⟨fun x hx => hx, fun x hx => hx⟩
  · exact ⟨fun x hx => List.mem_cons_of_mem _ hx, fun x hx => hx⟩

theorem processTask_seen_mono (st : EngineState) (t : MeetingTask) :
    st.seenDecision ⊆ (processTask st t).seenDecision ∧
      st.seenTask ⊆ (processTask st t).seenTask := by
  unfold processTask
  split
  · exact ⟨fun x hx => hx, fun x hx => hx⟩
  · split
    · split
      · exact ⟨fun x hx => hx, fun x hx => List.mem_cons_of_mem _ hx⟩
      · exact ⟨fun x hx => hx, fun x hx => List.mem_cons_of_mem _ hx⟩
    · split
      · exact ⟨fun x hx => hx, fun x hx => List.mem_cons_of_mem _ hx⟩
      · exact ⟨fun x hx => hx, fun x hx => List.mem_cons_of_mem _ hx⟩

theorem foldl_decisions_seen_mono (st : EngineState) (ds : List Str) :
    st.seenDecision ⊆ (ds.foldl processDecision st).seenDecision ∧
      st.seenTask ⊆ (ds.foldl processDecision st).seenTask := by
  induction ds generalizing st with
  | nil => exact ⟨fun x hx => hx, fun x hx => hx⟩
  | cons d rest ih =>
    refine ⟨fun x hx => ?_, fun x hx => ?_⟩
    · exact (ih (processDecision st d)).1 ((processDecision_seen_mono st d).1 hx)
    · exact (ih (processDecision st d)).2 ((processDecision_seen_mono st d).2 hx)

theorem foldl_tasks_seen_mono (st : EngineState) (ts : List MeetingTask) :
    st.seenDecision ⊆ (ts.foldl processTask st).seenDecision ∧
      st.seenTask ⊆ (ts.foldl processTask st).seenTask := by
  induction ts generalizing st with
  | nil => exact ⟨fun x hx => hx, fun x hx => hx⟩
  | cons t rest ih =>
    refine ⟨fun x hx => ?_, fun x hx => ?_⟩
    · exact (ih (processTask st t)).1 ((processTask_seen_mono st t).1 hx)
    · exact (ih (processTask st t)).2 ((processTask_seen_mono st t).2 hx)

theorem processChunk_seen_mono (st : EngineState) (c : Str) :
    st.seenDecision ⊆ (processChunk st c).seenDecision ∧
      st.seenTask ⊆ (processChunk st c).seenTask := by
  unfold processChunk
  constructor
  · exact fun x hx =>
      (foldl_tasks_seen_mono _ _).1 ((foldl_decisions_seen_mono st _).1 hx)
  · exact fun x hx =>
      (foldl_tasks_seen_mono _ _).2 ((foldl_decisions_seen_mono st _).2 hx)

theorem covers_processChunk (st : EngineState) (c : Str) :
    Covers (processChunk st c) c := by
  unfold Covers processChunk
  constructor
  · intro d hd
    have hstep : ∀ (ds : List Str) (st0 : EngineState), d ∈ ds →
        d ∈ (ds.foldl processDecision st0).seenDecision := by
      intro ds
      induction ds with
      | nil => intro st0 h; simp at h
      | cons x xs ih =>
        intro st0 h
        rcases List.mem_cons.mp h with h | h
        · subst h
          exact (foldl_decisions_seen_mono (processDecision st0 d) xs).1
            (processDecision_seen_self st0 d)
        · exact ih (processDecision st0 x) h
    exact (foldl_tasks_seen_mono _ _).1 (hstep _ st hd)
  · intro t ht
    have hstep : ∀ (ts : List MeetingTask) (st0 : EngineState), t ∈ ts →
        t.text ∈ (ts.foldl processTask st0).seenTask := by
      intro ts
      induction ts with
      | nil => intro st0 h; simp at h
      | cons x xs ih =>
        intro st0 h
        rcases List.mem_cons.mp h with h | h
        · subst h
          exact (foldl_tasks_seen_mono (processTask st0 t) xs).2
            (processTask_seen_self st0 t)
        · exact ih (processTask st0 x) h
    exact hstep _ _ ht

theorem covers_mono {st st' : EngineState} {c : Str} (h : Covers st c)
    (hd : st.seenDecision ⊆ st'.seenDecision) (ht : st.seenTask ⊆ st'.seenTask) :
    Covers st' c :=
  ⟨fun d hdm => hd (h.1 d hdm), fun t htm => ht (h.2 t htm)⟩

theorem processDecision_of_seen {st : EngineState} {d : Str} (h : d ∈ st.seenDecision) :
    processDecision st d = st := by
  unfold processDecision
  rw [if_pos h]

theorem processTask_of_seen {st : EngineState} {t : MeetingTask}
    (h : t.text ∈ st.seenTask) : processTask st t = st := by
  unfold processTask
  rw [if_pos h]

theorem processChunk_of_covers {st : EngineState} {c : Str} (h : Covers st c) :
    processChunk st c = st := by
  unfold processChunk
  have h1 : ∀ (ds : List Str), (∀ d ∈ ds, d ∈ st.seenDecision) →
      ds.foldl processDecision st = st := by
    intro ds
    induction ds with
    | nil => intro _; rfl
    | cons x xs ih =>
      intro hall
      rw [List.foldl_cons, processDecision_of_seen (hall x (by simp))]
      exact ih (fun d hd => hall d (by simp [hd]))
  have h2 : ∀ (ts : List MeetingTask), (∀ t ∈ ts, t.text ∈ st.seenTask) →
      ts.foldl processTask st = st := by
    intro ts
    induction ts with
    | nil => intro _; rfl
    | cons x xs ih =>
      intro hall
      rw [List.foldl_cons, processTask_of_seen (hall x (by simp))]
      exact ih (fun t ht => hall t (by simp [ht]))
  show ((extractMeetingSignals c).2).foldl processTask
      (((extractMeetingSignals c).1).foldl processDecision st) = st
  rw [h1 _ h.1, h2 _ h.2]

theorem covers_prefix (chunks : List Str) (c : Str) (i : Nat)
    (hi : chunks[i]? = some c) :
    ∀ j, i < j → j ≤ chunks.length →
      Covers ((chunks.take j).foldl processChunk initState) c := by
  intro j
  induction j with
  | zero => intro h; omega
  | succ j ih =>
    intro hij hj
    have hjlen : j < chunks.length := by omega
    have hcj : chunks[j]? = some chunks[j] := List.getElem?_eq_getElem hjlen
    rcases Nat.lt_or_ge i j with hlt | hge
    · have hcov := ih hlt (by omega)
      rw [take_succ_foldl chunks initState j chunks[j] hcj]
      exact covers_mono hcov (processChunk_seen_mono _ _).1 (processChunk_seen_mono _ _).2
    · have hieq : i = j := by omega
      subst hieq
      have hceq : chunks[i] = c := by
        rw [List.getElem?_eq_getElem hjlen, Option.some.injEq] at hi
        exact hi
      rw [take_succ_foldl chunks initState i chunks[i] hcj, hceq]
      exact covers_processChunk _ c

/-- C3: a chunk whose text already occurred earlier in the stream changes
nothing: the engine state (in particular the decision list, the confirmed
task list, and the pending queue) is unchanged across it, and its recorded
incremental update reports zero decisions added and zero tasks added with the
unchanged totals. -/
theorem repeated_chunk_idempotent (ctx : WorkflowContext) (p : Payload) (i j : Nat) (c : Str)
    (hij : i < j) (hi : (readTranscriptChunks p).chunks[i]? = some c)
    (hj : (readTranscriptChunks p).chunks[j]? = some c) :
    (((readTranscriptChunks p).chunks.take (j + 1)).foldl processChunk initState) =
      (((readTranscriptChunks p).chunks.take j).foldl processChunk initState) ∧
    (runMeetingExtractWorkflow ctx p).data.incremental_updates[j]? =
      some
        { chunk_index := j
          decisions_added := 0
          tasks_added := 0
          total_decisions :=
            ((((readTranscriptChunks p).chunks.take j).foldl processChunk
              initState).decisions.length)
          total_tasks :=
            ((((readTranscriptChunks p).chunks.take j).foldl processChunk
              initState).tasks.length) } := by
  have hjlen : j < (readTranscriptChunks p).chunks.length := by
    have := List.getElem?_eq_some_iff.mp hj
    exact this.1
  have hcov : Covers (((readTranscriptChunks p).chunks.take j).foldl processChunk initState)
      c :=
    covers_prefix (readTranscriptChunks p).chunks c i hi j hij (by omega)
  have hfix : processChunk (((readTranscriptChunks p).chunks.take j).foldl processChunk
      initState) c =
      (((readTranscriptChunks p).chunks.take j).foldl processChunk initState) :=
    processChunk_of_covers hcov
  have hstep := take_succ_foldl (readTranscriptChunks p).chunks initState j c hj
  refine ⟨by rw [hstep, hfix], ?_⟩
  have hget := runChunksFrom_get initState 0 (readTranscriptChunks p).chunks j c hj
  simp only [runMeetingExtractWorkflow, buildDryRunSuccessResult]
  rw [hget]
  simp only [stepChunk, hfix, Nat.zero_add, sub_self]

/-- Closed witness for the repeated-chunk theorem: a two-chunk stream whose
second chunk repeats the first. -/
theorem repeated_chunk_idempotent_witness :
    (0 : Nat) < 1 ∧
    (readTranscriptChunks ⟨none, none, [StreamItem.strItem "决策: a".toList,
        StreamItem.strItem "决策: a".toList]⟩).chunks[0]? = some "决策: a".toList ∧
    (readTranscriptChunks ⟨none, none, [StreamItem.strItem "决策: a".toList,
        StreamItem.strItem "决策: a".toList]⟩).chunks[1]? = some "决策: a".toList ∧
    (runMeetingExtractWorkflow ⟨[], [], [], []⟩ ⟨none, none,
        [StreamItem.strItem "决策: a".toList,
          StreamItem.strItem "决策: a".toList]⟩).data.incremental_updates[1]? =
      some
        { chunk_index := 1
          decisions_added := 0
          tasks_added := 0
          total_decisions :=
            ((((readTranscriptChunks ⟨none, none, [StreamItem.strItem "决策: a".toList,
              StreamItem.strItem "决策: a".toList]⟩).chunks.take 1).foldl processChunk
              initState).decisions.length)
          total_tasks :=
            ((((readTranscriptChunks ⟨none, none, [StreamItem.strItem "决策: a".toList,
              StreamItem.strItem "决策: a".toList]⟩).chunks.take 1).foldl processChunk
              initState).tasks.length) } :=
  ⟨by decide, by decide, by decide,
    (repeated_chunk_idempotent ⟨[], [], [], []⟩ ⟨none, none,
      [StreamItem.strItem "决策: a".toList, StreamItem.strItem "决策: a".toList]⟩ 0 1
      "决策: a".toList (by decide) (by decide) (by decide)).2⟩

/-! ## Candidate lists are duplicate-free by raw text -/

theorem addCandidate_nodup {cs : List MeetingTask} {c : MeetingTask}
    (h : (cs.map MeetingTask.text).Nodup) :
    ((addCandidate cs c).map MeetingTask.text).Nodup := by
  unfold addCandidate
  split
  case isTrue => exact h
  case isFalse hany =>
    have hnm : c.text ∉ cs.map MeetingTask.text := by
      intro hmem
      obtain ⟨t, ht, htx⟩ := List.mem_map.mp hmem
      have : cs.any (fun t => t.text == c.text) = true :=
        List.any_eq_true.mpr ⟨t, ht, by simp [htx]⟩
      simp [this] at hany
    simp [List.nodup_append, h, hnm]

theorem addCandidates_nodup {cs : List MeetingTask} (l : List MeetingTask)
    (h : (cs.map MeetingTask.text).Nodup) :
    ((addCandidates cs l).map MeetingTask.text).Nodup := by
  induction l generalizing cs with
  | nil => exact h
  | cons x xs ih => exact ih (addCandidate_nodup h)

theorem updateFirstBucket_nodup {pending : List PendingConfirmation} {ct : ConflictType}
    {d : Str} {cs : List MeetingTask} (h : PendingNodup pending) :
    PendingNodup (updateFirstBucket ct d cs pending) := by
  induction pending with
  | nil => exact h
  | cons pc rest ih =>
    unfold updateFirstBucket
    split
    · intro x hx
      rcases List.mem_cons.mp hx with hx | hx
      · subst hx
        exact addCandidates_nodup cs (h pc (by simp))
      · exact h x (by simp [hx])
    · intro x hx
      rcases List.mem_cons.mp hx with hx | hx
      · subst hx
        exact h x (by simp)
      · exact ih (fun y hy => h y (by simp [hy])) x hx

theorem upsertPendingConfirmation_nodup {pending : List PendingConfirmation}
    {ct : ConflictType} {d : Str} {cs : List MeetingTask} (h : PendingNodup pending) :
    PendingNodup (upsertPendingConfirmation pending ct d cs) := by
  unfold upsertPendingConfirmation
  split
  · exact updateFirstBucket_nodup h
  · intro x hx
    rcases List.mem_append.mp hx with hx | hx
    · exact h x hx
    · simp only [List.mem_singleton] at hx
      subst hx
      exact addCandidates_nodup cs List.nodup_nil

theorem evictPendingStep_nodup {pending : List PendingConfirmation} {t e : MeetingTask}
    {ct : ConflictType} {cond : Bool} (h : PendingNodup pending) :
    PendingNodup (evictPendingStep pending t e ct cond) := by
  unfold evictPendingStep
  split
  · exact upsertPendingConfirmation_nodup h
  · exact h

theorem evictPending_nodup {pending : List PendingConfirmation} {t e : MeetingTask}
    (h : PendingNodup pending) : PendingNodup (evictPending pending t e) :=
  evictPendingStep_nodup (evictPendingStep_nodup h)

theorem queuePendingStep_nodup {pending : List PendingConfirmation} {t : MeetingTask}
    {ct : ConflictType} (h : PendingNodup pending) :
    PendingNodup (queuePendingStep pending t ct) := by
  unfold queuePendingStep
  split
  · exact upsertPendingConfirmation_nodup h
  · exact h

theorem queuePending_nodup {pending : List PendingConfirmation} {t : MeetingTask}
    (h : PendingNodup pending) : PendingNodup (queuePending pending t) :=
  queuePendingStep_nodup (queuePendingStep_nodup h)

theorem processTask_nodup {st : EngineState} {t : MeetingTask}
    (h : PendingNodup st.pending) : PendingNodup (processTask st t).pending := by
  unfold processTask
  split
  · exact h
  · split
    · split
      · exact evictPending_nodup h
      · exact h
    · split
      · exact queuePending_nodup h
      · exact h

theorem processChunk_nodup {st : EngineState} {c : Str}
    (h : PendingNodup st.pending) : PendingNodup (processChunk st c).pending := by
  unfold processChunk
  have h1 : ∀ (ds : List Str) (st0 : EngineState), PendingNodup st0.pending →
      PendingNodup (ds.foldl processDecision st0).pending := by
    intro ds
    induction ds with
    | nil => exact fun st0 h0 => h0
    | cons x xs ih =>
      intro st0 h0
      refine ih (processDecision st0 x) ?_
      unfold processDecision
      split
      · exact h0
      · exact h0
  have h2 : ∀ (ts : List MeetingTask) (st0 : EngineState), PendingNodup st0.pending →
      PendingNodup (ts.foldl processTask st0).pending := by
    intro ts
    induction ts with
    | nil => exact fun st0 h0 => h0
    | cons x xs ih => exact fun st0 h0 => ih (processTask st0 x) (processTask_nodup h0)
  exact h2 _ _ (h1 _ _ h)

theorem run_pending_nodup (chunks : List Str) :
    PendingNodup ((chunks.foldl processChunk initState).pending) := by
  have hgen : ∀ (cs : List Str) (st : EngineState), PendingNodup st.pending →
      PendingNodup ((cs.foldl processChunk st).pending) := by
    intro cs
    induction cs with
    | nil => exact fun st h => h
    | cons c rest ih => exact fun st h => ih (processChunk st c) (processChunk_nodup h)
  exact hgen chunks initState (fun pc hpc => by simp [initState] at hpc)

/-- C7: at the end of every run no pending bucket holds two candidates with
the same raw text, and candidate insertion appends at the end exactly when the
raw text is new — deduplication looks at the raw text only, never at owner or
due date, so differently-phrased tasks with equal attributes stay distinct. -/
theorem pending_candidates_nodup (ctx : WorkflowContext) (p : Payload) :
    (∀ pc ∈ (runMeetingExtractWorkflow ctx p).data.pending_confirmations,
      (pc.candidates.map MeetingTask.text).Nodup) ∧
    (∀ (cs : List MeetingTask) (c : MeetingTask), addCandidate cs c =
      if (cs.map MeetingTask.text).contains c.text then cs else cs ++ [c]) := by
  constructor
  · intro pc hpc
    have hrun : (runMeetingExtractWorkflow ctx p).data.pending_confirmations =
        (((readTranscriptChunks p).chunks).foldl processChunk initState).pending := by
      simp only [runMeetingExtractWorkflow, buildDryRunSuccessResult, runChunksFrom_fst]
    rw [hrun] at hpc
    exact run_pending_nodup _ pc hpc
  · intro cs c
    unfold addCandidate
    have hcond : (cs.any (fun t => t.text == c.text)) =
        ((cs.map MeetingTask.text).contains c.text) := by
      by_cases hm : c.text ∈ cs.map MeetingTask.text
      · have h1 : (cs.map MeetingTask.text).contains c.text = true := by
          simpa using hm
        have h2 : cs.any (fun t => t.text == c.text) = true := by
          obtain ⟨t, ht, htx⟩ := List.mem_map.mp hm
          exact List.any_eq_true.mpr ⟨t, ht, by simp [htx]⟩
        rw [h1, h2]
      · have h1 : (cs.map MeetingTask.text).contains c.text = false := by
          simpa using hm
        have h2 : cs.any (fun t => t.text == c.text) = false := by
          rw [Bool.eq_false_iff]
          intro hany
          obtain ⟨t, ht, htx⟩ := List.any_eq_true.mp hany
          exact hm (List.mem_map.mpr ⟨t, ht, by simpa using htx⟩)
        rw [h1, h2]
    rw [hcond]

/-- Closed witness for the candidate-nodup theorem at the spec's owner-conflict
example. -/
theorem pending_candidates_nodup_witness :
    ({ conflict_type := ConflictType.owner_conflict
       description := "签约材料".toList
       candidates :=
        [{ text := "张三 在 2026-02-25 前完成 签约材料".toList, description := "签约材料".toList,
           owner := some "张三".toList, due_at := some "2026-02-25".toList },
         { text := "李四 在 2026-02-25 前完成 签约材料".toList, description := "签约材料".toList,
           owner := some "李四".toList, due_at := some "2026-02-25".toList }] } :
      PendingConfirmation) ∈
      (runMeetingExtractWorkflow ⟨[], [], [], []⟩ ⟨none,
        some "待办：张三 在 2026-02-25 前完成 签约材料\n待办：李四 在 2026-02-25 前完成 签约材料".toList,
        []⟩).data.pending_confirmations ∧
    (({ conflict_type := ConflictType.owner_conflict
        description := "签约材料".toList
        candidates :=
          [{ text := "张三 在 2026-02-25 前完成 签约材料".toList, description := "签约材料".toList,
             owner := some "张三".toList, due_at := some "2026-02-25".toList },
           { text := "李四 在 2026-02-25 前完成 签约材料".toList, description := "签约材料".toList,
             owner := some "李四".toList, due_at := some "2026-02-25".toList }] } :
        PendingConfirmation).candidates.map MeetingTask.text).Nodup :=
  ⟨by decide,
    (pending_candidates_nodup ⟨[], [], [], []⟩ ⟨none,
      some "待办：张三 在 2026-02-25 前完成 签约材料\n待办：李四 在 2026-02-25 前完成 签约材料".toList,
      []⟩).1
      { conflict_type := ConflictType.owner_conflict
        description := "签约材料".toList
        candidates :=
          [{ text := "张三 在 2026-02-25 前完成 签约材料".toList, description := "签约材料".toList,
             owner := some "张三".toList, due_at := some "2026-02-25".toList },
           { text := "李四 在 2026-02-25 前完成 签约材料".toList, description := "签约材料".toList,
             owner := some "李四".toList, due_at := some "2026-02-25".toList }] }
      (by decide)⟩

/-! ## Index and pending-queue structural lemmas -/

theorem sameBucket_iff {ct : ConflictType} {d : Str} {pc : PendingConfirmation} :
    sameBucket ct d pc = true ↔ pc.conflict_type = ct ∧ pc.description = d := by
  simp [sameBucket]

theorem idxGet_delete_self (idx : List (Str × MeetingTask)) (d : Str) :
    idxGet (idxDelete idx d) d = none := by
  induction idx with
  | nil => rfl
  | cons p rest ih =>
    unfold idxDelete at ih ⊢
    rw [List.filter_cons]
    by_cases hp : p.1 = d
    · simp only [hp, beq_self_eq_true, Bool.not_true, Bool.false_eq_true, if_false]
      exact ih
    · simp only [beq_eq_false_iff_ne.mpr hp, Bool.not_false, if_true]
      unfold idxGet
      rw [List.find?_cons_of_neg _ (by simp [hp])]
      exact ih

theorem idxGet_delete_ne (idx : List (Str × MeetingTask)) (d d' : Str) (h : d' ≠ d) :
    idxGet (idxDelete idx d) d' = idxGet idx d' := by
  induction idx with
  | nil => rfl
  | cons p rest ih =>
    unfold idxDelete at ih ⊢
    rw [List.filter_cons]
    by_cases hp : p.1 = d
    · simp only [hp, beq_self_eq_true, Bool.not_true, Bool.false_eq_true, if_false]
      rw [ih]
      unfold idxGet
      rw [List.find?_cons_of_neg _ (by simp [hp]; exact fun hh => h hh.symm)]
    · simp only [beq_eq_false_iff_ne.mpr hp, Bool.not_false, if_true]
      unfold idxGet
      by_cases hq : p.1 = d'
      · rw [List.find?_cons_of_pos _ (by simp [hq]), List.find?_cons_of_pos _ (by simp [hq])]
      · rw [List.find?_cons_of_neg _ (by simp [hq]), List.find?_cons_of_neg _ (by simp [hq])]
        exact ih

theorem idxGet_append_single (idx : List (Str × MeetingTask)) (d : Str) (t : MeetingTask)
    (d' : Str) :
    idxGet (idx ++ [(d, t)]) d' =
      match idxGet idx d' with
      | some x => some x
      | none => if d' = d then some t else none := by
  unfold idxGet
  rw [List.find?_append]
  cases hf : idx.find? (fun p => p.1 == d') with
  | some p => rfl
  | none =>
    by_cases hd : d' = d
    · subst hd
      rw [List.find?_cons_of_pos _ (by simp)]
      simp
    · rw [List.find?_cons_of_neg _ (by simp; exact fun hh => hd hh.symm)]
      simp [hd]

theorem idxSet_of_none {idx : List (Str × MeetingTask)} {d : Str} (t : MeetingTask)
    (h : idxGet idx d = none) : idxSet idx d t = idx ++ [(d, t)] := by
  unfold idxSet
  unfold idxGet at h
  cases hf : idx.find? (fun p => p.1 == d) with
  | some p => rw [hf] at h; simp at h
  | none => simp [hf]

theorem mem_updateFirstBucket {pc : PendingConfirmation} {ct : ConflictType} {d : Str}
    {cs : List MeetingTask} {l : List PendingConfirmation}
    (h : pc ∈ updateFirstBucket ct d cs l) :
    ∃ pc0 ∈ l, pc.conflict_type = pc0.conflict_type ∧ pc.description = pc0.description := by
  induction l with
  | nil => simp [updateFirstBucket] at h
  | cons x xs ih =>
    unfold updateFirstBucket at h
    split at h
    · rcases List.mem_cons.mp h with h | h
      · subst h
        exact ⟨x, by simp, rfl, rfl⟩
      · exact ⟨pc, by simp [h], rfl, rfl⟩
    · rcases List.mem_cons.mp h with h | h
      · subst h
        exact ⟨pc, by simp, rfl, rfl⟩
      · obtain ⟨pc0, hpc0, hk1, hk2⟩ := ih h
        exact ⟨pc0, by simp [hpc0], hk1, hk2⟩

theorem mem_upsert_keys {pc : PendingConfirmation} {pending : List PendingConfirmation}
    {ct : ConflictType} {d : Str} {cs : List MeetingTask}
    (h : pc ∈ upsertPendingConfirmation pending ct d cs) :
    (∃ pc0 ∈ pending, pc.conflict_type = pc0.conflict_type ∧
      pc.description = pc0.description) ∨
    (pc.conflict_type = ct ∧ pc.description = d) := by
  unfold upsertPendingConfirmation at h
  split at h
  · exact Or.inl (mem_updateFirstBucket h)
  · rcases List.mem_append.mp h with h | h
    · exact Or.inl ⟨pc, h, rfl, rfl⟩
    · simp only [List.mem_singleton] at h
      subst h
      exact Or.inr ⟨rfl, rfl⟩

theorem updateFirstBucket_pairwise {ct : ConflictType} {d : Str} {cs : List MeetingTask}
    {l : List PendingConfirmation}
    (h : l.Pairwise (fun a b =>
      ¬(a.conflict_type = b.conflict_type ∧ a.description = b.description))) :
    (updateFirstBucket ct d cs l).Pairwise (fun a b =>
      ¬(a.conflict_type = b.conflict_type ∧ a.description = b.description)) := by
  induction l with
  | nil => exact h
  | cons x xs ih =>
    rw [List.pairwise_cons] at h
    unfold updateFirstBucket
    split
    · rw [List.pairwise_cons]
      exact ⟨fun b hb => h.1 b hb, h.2⟩
    · rw [List.pairwise_cons]
      refine ⟨fun b hb => ?_, ih h.2⟩
      obtain ⟨pc0, hpc0, hk1, hk2⟩ := mem_updateFirstBucket hb
      rw [hk1, hk2]
      exact h.1 pc0 hpc0

theorem upsert_pairwise {pending : List PendingConfirmation} {ct : ConflictType} {d : Str}
    {cs : List MeetingTask}
    (h : pending.Pairwise (fun a b =>
      ¬(a.conflict_type = b.conflict_type ∧ a.description = b.description))) :
    (upsertPendingConfirmation pending ct d cs).Pairwise (fun a b =>
      ¬(a.conflict_type = b.conflict_type ∧ a.description = b.description)) := by
  unfold upsertPendingConfirmation
  split
  case isTrue => exact updateFirstBucket_pairwise h
  case isFalse hany =>
    rw [List.pairwise_append]
    refine ⟨h, by simp, ?_⟩
    intro a ha b hb
    simp only [List.mem_singleton] at hb
    subst hb
    simp only [not_and]
    intro hct hde
    have : pending.any (sameBucket ct d) = true :=
      List.any_eq_true.mpr ⟨a, ha, sameBucket_iff.mpr ⟨hct, hde⟩⟩
    simp [this] at hany

theorem upsert_append_of_not_any {pending : List PendingConfirmation} {ct : ConflictType}
    {d : Str} {cs : List MeetingTask} (h : pending.any (sameBucket ct d) = false) :
    upsertPendingConfirmation pending ct d cs =
      pending ++ [⟨ct, d, addCandidates [] cs⟩] := by
  unfold upsertPendingConfirmation
  rw [if_neg (by simp [h])]

theorem addCandidates_pair {e t : MeetingTask} (h : e.text ≠ t.text) :
    addCandidates [] [e, t] = [e, t] := by
  unfold addCandidates
  simp only [List.foldl_cons, List.foldl_nil]
  unfold addCandidate
  simp only [List.any_nil, Bool.false_eq_true, if_false, List.nil_append, List.any_cons,
    List.any_nil, Bool.or_false]
  rw [if_neg (by simpa using h)]
  rfl

theorem updateFirstBucket_eq_map {l : List PendingConfirmation} {ct : ConflictType}
    {d : Str} {cs : List MeetingTask}
    (h : l.Pairwise (fun a b =>
      ¬(a.conflict_type = b.conflict_type ∧ a.description = b.description))) :
    updateFirstBucket ct d cs l = l.map (fun pc =>
      if sameBucket ct d pc then { pc with candidates := addCandidates pc.candidates cs }
      else pc) := by
  induction l with
  | nil => rfl
  | cons x xs ih =>
    rw [List.pairwise_cons] at h
    unfold updateFirstBucket
    split
    case isTrue hx =>
      simp only [List.map_cons, hx, if_true]
      congr 1
      have : ∀ b ∈ xs, (if sameBucket ct d b then
          ({ b with candidates := addCandidates b.candidates cs } : PendingConfirmation)
          else b) = b := by
        intro b hb
        rw [if_neg]
        intro hsb
        obtain ⟨hb1, hb2⟩ := sameBucket_iff.mp hsb
        obtain ⟨hx1, hx2⟩ := sameBucket_iff.mp hx
        exact h.1 b hb ⟨hx1.trans hb1.symm, hx2.trans hb2.symm⟩
      rw [List.map_congr_left this]
      simp
    case isFalse hx =>
      simp only [List.map_cons, hx, Bool.false_eq_true, if_false]
      congr 1
      exact ih h.2

theorem queuePendingStep_eq_map {pending : List PendingConfirmation} {t : MeetingTask}
    {ct : ConflictType}
    (h : pending.Pairwise (fun a b =>
      ¬(a.conflict_type = b.conflict_type ∧ a.description = b.description))) :
    queuePendingStep pending t ct = pending.map (fun pc =>
      if sameBucket ct t.description pc then
        { pc with candidates := addCandidate pc.candidates t }
      else pc) := by
  unfold queuePendingStep
  split
  case isTrue hany =>
    rw [upsertPendingConfirmation, if_pos hany, updateFirstBucket_eq_map h]
    rfl
  case isFalse hany =>
    have : ∀ pc ∈ pending, (if sameBucket ct t.description pc then
        ({ pc with candidates := addCandidate pc.candidates t } : PendingConfirmation)
        else pc) = pc := by
      intro pc hpc
      rw [if_neg]
      intro hsb
      exact hany (List.any_eq_true.mpr ⟨pc, hpc, hsb⟩)
    rw [List.map_congr_left this]
    simp

theorem map_pairwise_keys {pending : List PendingConfirmation}
    (f : PendingConfirmation → PendingConfirmation)
    (hf : ∀ pc, (f pc).conflict_type = pc.conflict_type ∧ (f pc).description = pc.description)
    (h : pending.Pairwise (fun a b =>
      ¬(a.conflict_type = b.conflict_type ∧ a.description = b.description))) :
    (pending.map f).Pairwise (fun a b =>
      ¬(a.conflict_type = b.conflict_type ∧ a.description = b.description)) := by
  rw [List.pairwise_map]
  refine h.imp ?_
  intro a b hab
  rw [(hf a).1, (hf a).2, (hf b).1, (hf b).2]
  exact hab

theorem queuePending_eq_map {pending : List PendingConfirmation} {t : MeetingTask}
    (h : pending.Pairwise (fun a b =>
      ¬(a.conflict_type = b.conflict_type ∧ a.description = b.description))) :
    queuePending pending t = pending.map (fun pc =>
      if pc.description = t.description then
        { pc with candidates := addCandidate pc.candidates t }
      else pc) := by
  unfold queuePending
  rw [queuePendingStep_eq_map h]
  rw [queuePendingStep_eq_map (map_pairwise_keys _ (fun pc => by split <;> simp) h)]
  rw [List.map_map]
  apply List.map_congr_left
  intro pc _
  simp only [Function.comp]
  by_cases hb1 : sameBucket ConflictType.owner_conflict t.description pc = true
  · rw [if_pos hb1]
    rw [if_neg (fun hsb => by
      have h2 := (sameBucket_iff.mp hsb).1
      simp only at h2
      rw [(sameBucket_iff.mp hb1).1] at h2
      exact absurd h2 (by simp))]
    rw [if_pos (sameBucket_iff.mp hb1).2]
  · rw [if_neg hb1]
    by_cases hb2 : sameBucket ConflictType.date_conflict t.description pc = true
    · rw [if_pos hb2, if_pos (sameBucket_iff.mp hb2).2]
    · rw [if_neg hb2]
      by_cases hd : pc.description = t.description
      · exfalso
        cases hct : pc.conflict_type with
        | owner_conflict => exact hb1 (sameBucket_iff.mpr ⟨hct, hd⟩)
        | date_conflict => exact hb2 (sameBucket_iff.mpr ⟨hct, hd⟩)
      · rw [if_neg hd]

/-! ## Preservation of well-formedness -/

theorem mem_evictPendingStep_keys {pc : PendingConfirmation}
    {pending : List PendingConfirmation} {t e : MeetingTask} {ct : ConflictType}
    {cond : Bool} (h : pc ∈ evictPendingStep pending t e ct cond) :
    (∃ pc0 ∈ pending, pc.description = pc0.description) ∨ pc.description = t.description := by
  unfold evictPendingStep at h
  split at h
  · rcases mem_upsert_keys h with ⟨pc0, hpc0, _, hk⟩ | ⟨_, hk⟩
    · exact Or.inl ⟨pc0, hpc0, hk⟩
    · exact Or.inr hk
  · exact Or.inl ⟨pc, h, rfl⟩

theorem mem_evictPending_keys {pc : PendingConfirmation}
    {pending : List PendingConfirmation} {t e : MeetingTask}
    (h : pc ∈ evictPending pending t e) :
    (∃ pc0 ∈ pending, pc.description = pc0.description) ∨ pc.description = t.description := by
  rcases mem_evictPendingStep_keys h with ⟨pc0, hpc0, hk⟩ | hk
  · rcases mem_evictPendingStep_keys hpc0 with ⟨pc1, hpc1, hk1⟩ | hk1
    · exact Or.inl ⟨pc1, hpc1, hk.trans hk1⟩
    · exact Or.inr (hk.trans hk1)
  · exact Or.inr hk

theorem mem_queuePendingStep_keys {pc : PendingConfirmation}
    {pending : List PendingConfirmation} {t : MeetingTask} {ct : ConflictType}
    (h : pc ∈ queuePendingStep pending t ct) :
    (∃ pc0 ∈ pending, pc.description = pc0.description) ∨ pc.description = t.description := by
  unfold queuePendingStep at h
  split at h
  · rcases mem_upsert_keys h with ⟨pc0, hpc0, _, hk⟩ | ⟨_, hk⟩
    · exact Or.inl ⟨pc0, hpc0, hk⟩
    · exact Or.inr hk
  · exact Or.inl ⟨pc, h, rfl⟩

theorem mem_queuePending_keys {pc : PendingConfirmation}
    {pending : List PendingConfirmation} {t : MeetingTask}
    (h : pc ∈ queuePending pending t) :
    (∃ pc0 ∈ pending, pc.description = pc0.description) ∨ pc.description = t.description := by
  rcases mem_queuePendingStep_keys h with ⟨pc0, hpc0, hk⟩ | hk
  · rcases mem_queuePendingStep_keys hpc0 with ⟨pc1, hpc1, hk1⟩ | hk1
    · exact Or.inl ⟨pc1, hpc1, hk.trans hk1⟩
    · exact Or.inr (hk.trans hk1)
  · exact Or.inr hk

theorem evictPendingStep_pairwise {pending : List PendingConfirmation} {t e : MeetingTask}
    {ct : ConflictType} {cond : Bool}
    (h : pending.Pairwise (fun a b =>
      ¬(a.conflict_type = b.conflict_type ∧ a.description = b.description))) :
    (evictPendingStep pending t e ct cond).Pairwise (fun a b =>
      ¬(a.conflict_type = b.conflict_type ∧ a.description = b.description)) := by
  unfold evictPendingStep
  split
  · exact upsert_pairwise h
  · exact h

theorem evictPending_pairwise {pending : List PendingConfirmation} {t e : MeetingTask}
    (h : pending.Pairwise (fun a b =>
      ¬(a.conflict_type = b.conflict_type ∧ a.description = b.description))) :
    (evictPending pending t e).Pairwise (fun a b =>
      ¬(a.conflict_type = b.conflict_type ∧ a.description = b.description)) :=
  evictPendingStep_pairwise (evictPendingStep_pairwise h)

theorem queuePendingStep_pairwise {pending : List PendingConfirmation} {t : MeetingTask}
    {ct : ConflictType}
    (h : pending.Pairwise (fun a b =>
      ¬(a.conflict_type = b.conflict_type ∧ a.description = b.description))) :
    (queuePendingStep pending t ct).Pairwise (fun a b =>
      ¬(a.conflict_type = b.conflict_type ∧ a.description = b.description)) := by
  unfold queuePendingStep
  split
  · exact upsert_pairwise h
  · exact h

theorem queuePending_pairwise {pending : List PendingConfirmation} {t : MeetingTask}
    (h : pending.Pairwise (fun a b =>
      ¬(a.conflict_type = b.conflict_type ∧ a.description = b.description))) :
    (queuePending pending t).Pairwise (fun a b =>
      ¬(a.conflict_type = b.conflict_type ∧ a.description = b.description)) :=
  queuePendingStep_pairwise (queuePendingStep_pairwise h)

theorem wf_init : WF initState := by
  refine ⟨?_, ?_, ?_, ?_, ?_, ?_, ?_⟩ <;> simp [initState, idxGet]

theorem wf_processDecision {st : EngineState} (h : WF st) (d : Str) :
    WF (processDecision st d) := by
  unfold processDecision
  split
  · exact h
  · exact ⟨h.idx_not_conflicted, h.pending_conflicted, h.idx_seen, h.idx_desc, h.idx_ok,
      h.idx_in_tasks, h.buckets_unique⟩

theorem wf_processTask {st : EngineState} {t : MeetingTask} (h : WF st) (ht : TaskOk t) :
    WF (processTask st t) := by
  unfold processTask
  split
  case isTrue => exact h
  case isFalse hseen =>
    split
    case _ existing heq =>
      split
      case isTrue hconf =>
        refine ⟨?_, ?_, ?_, ?_, ?_, ?_, ?_⟩
        · intro d' hsome
          by_cases hd : d' = t.description
          · subst hd
            rw [idxGet_delete_self] at hsome
            simp at hsome
          · rw [idxGet_delete_ne _ _ _ hd] at hsome
            have := h.idx_not_conflicted d' hsome
            simp only [List.mem_cons]
            exact fun hc => by
              rcases hc with hc | hc
              · exact hd hc
              · exact this hc
        · intro pc hpc
          simp only [List.mem_cons]
          rcases mem_evictPending_keys hpc with ⟨pc0, hpc0, hk⟩ | hk
          · exact Or.inr (hk ▸ h.pending_conflicted pc0 hpc0)
          · exact Or.inl hk
        · intro d' x hx
          by_cases hd : d' = t.description
          · subst hd
            rw [idxGet_delete_self] at hx
            exact absurd hx (by simp)
          · rw [idxGet_delete_ne _ _ _ hd] at hx
            exact List.mem_cons_of_mem _ (h.idx_seen d' x hx)
        · intro d' x hx
          by_cases hd : d' = t.description
          · subst hd
            rw [idxGet_delete_self] at hx
            exact absurd hx (by simp)
          · rw [idxGet_delete_ne _ _ _ hd] at hx
            exact h.idx_desc d' x hx
        · intro d' x hx
          by_cases hd : d' = t.description
          · subst hd
            rw [idxGet_delete_self] at hx
            exact absurd hx (by simp)
          · rw [idxGet_delete_ne _ _ _ hd] at hx
            exact h.idx_ok d' x hx
        · intro d' x hx
          by_cases hd : d' = t.description
          · subst hd
            rw [idxGet_delete_self] at hx
            exact absurd hx (by simp)
          · rw [idxGet_delete_ne _ _ _ hd] at hx
            refine List.mem_filter.mpr ⟨h.idx_in_tasks d' x hx, ?_⟩
            have hxd : x.description = d' := h.idx_desc d' x hx
            simp [hxd, hd]
        · exact evictPending_pairwise h.buckets_unique
      case isFalse =>
        exact ⟨h.idx_not_conflicted, h.pending_conflicted,
          fun d' x hx => List.mem_cons_of_mem _ (h.idx_seen d' x hx), h.idx_desc, h.idx_ok,
          h.idx_in_tasks, h.buckets_unique⟩
    case _ heq =>
      split
      case isTrue hc =>
        refine ⟨h.idx_not_conflicted, ?_, fun d' x hx =>
          List.mem_cons_of_mem _ (h.idx_seen d' x hx), h.idx_desc, h.idx_ok,
          h.idx_in_tasks, ?_⟩
        · intro pc hpc
          rcases mem_queuePending_keys hpc with ⟨pc0, hpc0, hk⟩ | hk
          · exact hk ▸ h.pending_conflicted pc0 hpc0
          · exact hk ▸ hc
        · exact queuePending_pairwise h.buckets_unique
      case isFalse hc =>
        have hset := idxSet_of_none t heq
        refine ⟨?_, h.pending_conflicted, ?_, ?_, ?_, ?_, h.buckets_unique⟩
        · intro d' hsome
          rw [hset, idxGet_append_single] at hsome
          cases hg : idxGet st.confirmedIdx d' with
          | some x =>
            rw [hg] at hsome
            exact h.idx_not_conflicted d' (by simp [hg])
          | none =>
            rw [hg] at hsome
            by_cases hd : d' = t.description
            · exact hd ▸ hc
            · rw [if_neg hd] at hsome
              simp at hsome
        · intro d' x hx
          rw [hset, idxGet_append_single] at hx
          cases hg : idxGet st.confirmedIdx d' with
          | some y =>
            rw [hg] at hx
            rw [Option.some.injEq] at hx
            exact hx ▸ List.mem_cons_of_mem _ (h.idx_seen d' y hg)
          | none =>
            rw [hg] at hx
            by_cases hd : d' = t.description
            · rw [if_pos hd, Option.some.injEq] at hx
              exact hx ▸ List.mem_cons_self _ _
            · rw [if_neg hd] at hx
              exact absurd hx (by simp)
        · intro d' x hx
          rw [hset, idxGet_append_single] at hx
          cases hg : idxGet st.confirmedIdx d' with
          | some y =>
            rw [hg, Option.some.injEq] at hx
            exact hx ▸ h.idx_desc d' y hg
          | none =>
            rw [hg] at hx
            by_cases hd : d' = t.description
            · rw [if_pos hd, Option.some.injEq] at hx
              exact hx ▸ hd.symm
            · rw [if_neg hd] at hx
              exact absurd hx (by simp)
        · intro d' x hx
          rw [hset, idxGet_append_single] at hx
          cases hg : idxGet st.confirmedIdx d' with
          | some y =>
            rw [hg, Option.some.injEq] at hx
            exact hx ▸ h.idx_ok d' y hg
          | none =>
            rw [hg] at hx
            by_cases hd : d' = t.description
            · rw [if_pos hd, Option.some.injEq] at hx
              exact hx ▸ ht
            · rw [if_neg hd] at hx
              exact absurd hx (by simp)
        · intro d' x hx
          rw [hset, idxGet_append_single] at hx
          cases hg : idxGet st.confirmedIdx d' with
          | some y =>
            rw [hg, Option.some.injEq] at hx
            exact hx ▸ List.mem_append_left _ (h.idx_in_tasks d' y hg)
          | none =>
            rw [hg] at hx
            by_cases hd : d' = t.description
            · rw [if_pos hd, Option.some.injEq] at hx
              exact hx ▸ List.mem_append_right _ (by simp)
            · rw [if_neg hd] at hx
              exact absurd hx (by simp)

theorem wf_reach {st : EngineState} (h : Reach st) : WF st := by
  induction h with
  | init => exact wf_init
  | dec st d _ ih => exact wf_processDecision ih d
  | task st t hok _ ih => exact wf_processTask ih hok

/-! ## Conflict handling on a confirmed description -/

theorem ownerConflictB_iff {e t : MeetingTask} (he : e.owner ≠ some [])
    (hto : t.owner ≠ some []) :
    ownerConflictB e t = true ↔
      (e.owner.isSome ∧ t.owner.isSome ∧ e.owner ≠ t.owner) := by
  unfold ownerConflictB jsTruthy
  cases heo : e.owner with
  | none => simp
  | some a =>
    cases hto2 : t.owner with
    | none => simp
    | some b =>
      have ha : a ≠ [] := fun hh => he (by rw [heo, hh])
      have hb : b ≠ [] := fun hh => hto (by rw [hto2, hh])
      simp [List.isEmpty_iff, ha, hb]

theorem dateConflictB_iff {e t : MeetingTask} (he : e.due_at ≠ some [])
    (hto : t.due_at ≠ some []) :
    dateConflictB e t = true ↔
      (e.due_at.isSome ∧ t.due_at.isSome ∧ e.due_at ≠ t.due_at) := by
  unfold dateConflictB jsTruthy
  cases heo : e.due_at with
  | none => simp
  | some a =>
    cases hto2 : t.due_at with
    | none => simp
    | some b =>
      have ha : a ≠ [] := fun hh => he (by rw [heo, hh])
      have hb : b ≠ [] := fun hh => hto (by rw [hto2, hh])
      simp [List.isEmpty_iff, ha, hb]

/-- C1: when a surviving task meets a confirmed task of the same description,
an owner conflict (both owners present and unequal) or a due-date conflict
(same rule) evicts the confirmed task from the index and the output list,
marks the description conflicted, and queues, for each conflicting attribute,
a bucket of that conflict type holding both the evicted and the new task as
candidates; with no conflicting attribute (a missing attribute on either side
never conflicts) the new task is discarded and the output list, the index and
the pending queue are unchanged. -/
theorem confirmed_conflict_resolution (st : EngineState) (task existing : MeetingTask)
    (hR : Reach st) (hok : TaskOk task) (hsurv : task.text ∉ st.seenTask)
    (hconf : idxGet st.confirmedIdx task.description = some existing) :
    (((existing.owner.isSome ∧ task.owner.isSome ∧ existing.owner ≠ task.owner) ∨
      (existing.due_at.isSome ∧ task.due_at.isSome ∧ existing.due_at ≠ task.due_at)) →
      idxGet (processTask st task).confirmedIdx task.description = none ∧
      existing ∈ st.tasks ∧
      existing ∉ (processTask st task).tasks ∧
      task.description ∈ (processTask st task).conflicted ∧
      ((existing.owner.isSome ∧ task.owner.isSome ∧ existing.owner ≠ task.owner) →
        ∃ pc ∈ (processTask st task).pending,
          pc.conflict_type = ConflictType.owner_conflict ∧
          pc.description = task.description ∧
          existing ∈ pc.candidates ∧ task ∈ pc.candidates) ∧
      ((existing.due_at.isSome ∧ task.due_at.isSome ∧ existing.due_at ≠ task.due_at) →
        ∃ pc ∈ (processTask st task).pending,
          pc.conflict_type = ConflictType.date_conflict ∧
          pc.description = task.description ∧
          existing ∈ pc.candidates ∧ task ∈ pc.candidates)) ∧
    ((¬(existing.owner.isSome ∧ task.owner.isSome ∧ existing.owner ≠ task.owner) ∧
      ¬(existing.due_at.isSome ∧ task.due_at.isSome ∧ existing.due_at ≠ task.due_at)) →
      (processTask st task).tasks = st.tasks ∧
      (processTask st task).confirmedIdx = st.confirmedIdx ∧
      (processTask st task).pending = st.pending) := by
  have hwf := wf_reach hR
  have hexok := hwf.idx_ok task.description existing hconf
  have hob := ownerConflictB_iff hexok.owner_ok hok.owner_ok
  have hdb := dateConflictB_iff hexok.due_ok hok.due_ok
  have hexdesc : existing.description = task.description :=
    hwf.idx_desc task.description existing hconf
  have hexseen : existing.text ∈ st.seenTask :=
    hwf.idx_seen task.description existing hconf
  have htext : existing.text ≠ task.text := fun hh => hsurv (hh ▸ hexseen)
  have hnotconf : task.description ∉ st.conflicted :=
    hwf.idx_not_conflicted task.description (by simp [hconf])
  have hnd : ∀ pc ∈ st.pending, pc.description ≠ task.description := by
    intro pc hpc hdd
    exact hnotconf (hdd ▸ hwf.pending_conflicted pc hpc)
  have hanyO : st.pending.any (sameBucket ConflictType.owner_conflict task.description) =
      false := by
    rw [Bool.eq_false_iff]
    intro hany
    obtain ⟨pc, hpc, hsb⟩ := List.any_eq_true.mp hany
    exact hnd pc hpc (sameBucket_iff.mp hsb).2
  have hanyD : st.pending.any (sameBucket ConflictType.date_conflict task.description) =
      false := by
    rw [Bool.eq_false_iff]
    intro hany
    obtain ⟨pc, hpc, hsb⟩ := List.any_eq_true.mp hany
    exact hnd pc hpc (sameBucket_iff.mp hsb).2
  have hcand : addCandidates [] [existing, task] = [existing, task] :=
    addCandidates_pair htext
  constructor
  · intro hcon
    have hbool : (ownerConflictB existing task || dateConflictB existing task) = true := by
      rcases hcon with hcon | hcon
      · rw [Bool.or_eq_true]
        exact Or.inl (hob.mpr hcon)
      · rw [Bool.or_eq_true]
        exact Or.inr (hdb.mpr hcon)
    have hstep : processTask st task =
        { st with
          seenTask := task.text :: st.seenTask
          conflicted := task.description :: st.conflicted
          confirmedIdx := idxDelete st.confirmedIdx task.description
          tasks := st.tasks.filter (fun it => !(it.description == task.description))
          pending := evictPending st.pending task existing } := by
      unfold processTask
      rw [if_neg hsurv]
      simp only [hconf]
      rw [if_pos hbool]
    rw [hstep]
    refine ⟨idxGet_delete_self _ _, hwf.idx_in_tasks task.description existing hconf, ?_,
      List.mem_cons_self _ _, ?_, ?_⟩
    · intro hmem
      have := (List.mem_filter.mp hmem).2
      simp [hexdesc] at this
    · intro hco
      have hbo : ownerConflictB existing task = true := hob.mpr hco
      have h1 : evictPendingStep st.pending task existing ConflictType.owner_conflict
          (ownerConflictB existing task) =
          st.pending ++ [⟨ConflictType.owner_conflict, task.description,
            [existing, task]⟩] := by
        unfold evictPendingStep
        rw [if_pos hbo, upsert_append_of_not_any hanyO, hcand]
      refine ⟨⟨ConflictType.owner_conflict, task.description, [existing, task]⟩, ?_, rfl,
        rfl, by simp, by simp⟩
      unfold evictPending
      rw [h1]
      unfold evictPendingStep
      split
      case isTrue hbd =>
        rw [upsert_append_of_not_any (by
          rw [List.any_append, hanyD]
          simp [sameBucket])]
        simp
      case isFalse => simp
    · intro hcd
      have hbd : dateConflictB existing task = true := hdb.mpr hcd
      refine ⟨⟨ConflictType.date_conflict, task.description, [existing, task]⟩, ?_, rfl,
        rfl, by simp, by simp⟩
      unfold evictPending evictPendingStep
      rw [if_pos hbd]
      by_cases hbo2 : ownerConflictB existing task = true
      · rw [if_pos hbo2, upsert_append_of_not_any hanyO, hcand]
        rw [upsert_append_of_not_any (by
          rw [List.any_append, hanyD]
          simp [sameBucket]), hcand]
        simp
      · rw [if_neg hbo2]
        rw [upsert_append_of_not_any hanyD, hcand]
        simp
  · intro ⟨hno, hnd2⟩
    have hbo : ownerConflictB existing task = false := by
      rw [Bool.eq_false_iff]
      exact fun hb => hno (hob.mp hb)
    have hbd : dateConflictB existing task = false := by
      rw [Bool.eq_false_iff]
      exact fun hb => hnd2 (hdb.mp hb)
    have hstep : processTask st task = { st with seenTask := task.text :: st.seenTask } := by
      unfold processTask
      rw [if_neg hsurv]
      simp only [hconf]
      rw [if_neg (by simp [hbo, hbd])]
    rw [hstep]
    exact ⟨rfl, rfl, rfl⟩

/-- Closed witness for the conflict-resolution theorem: a second task with the
same description and a different owner evicts the first. -/
theorem confirmed_conflict_resolution_witness :
    idxGet (processTask (processTask initState
        ⟨"a1".toList, "d".toList, some "x".toList, some "2026-01-01".toList⟩)
        ⟨"a2".toList, "d".toList, some "y".toList, some "2026-01-01".toList⟩).confirmedIdx
      "d".toList = none ∧
    "d".toList ∈ (processTask (processTask initState
        ⟨"a1".toList, "d".toList, some "x".toList, some "2026-01-01".toList⟩)
        ⟨"a2".toList, "d".toList, some "y".toList, some "2026-01-01".toList⟩).conflicted := by
  have h := confirmed_conflict_resolution
    (processTask initState
      ⟨"a1".toList, "d".toList, some "x".toList, some "2026-01-01".toList⟩)
    ⟨"a2".toList, "d".toList, some "y".toList, some "2026-01-01".toList⟩
    ⟨"a1".toList, "d".toList, some "x".toList, some "2026-01-01".toList⟩
    (Reach.task _ _ ⟨by decide, by decide⟩ Reach.init)
    ⟨by decide, by decide⟩ (by decide) (by decide)
  have hc := h.1 (Or.inl ⟨by decide, by decide, by decide⟩)
  exact ⟨hc.1, hc.2.2.2.1⟩

/-! ## Conflicted descriptions are sticky -/

theorem processTask_conflicted_mono (st : EngineState) (t : MeetingTask) :
    st.conflicted ⊆ (processTask st t).conflicted := by
  unfold processTask
  split
  · exact fun x hx => hx
  · split
    · split
      · exact fun x hx => List.mem_cons_of_mem _ hx
      · exact fun x hx => hx
    · split
      · exact fun x hx => hx
      · exact fun x hx => hx

theorem processDecision_conflicted_mono (st : EngineState) (d : Str) :
    st.conflicted ⊆ (processDecision st d).conflicted := by
  unfold processDecision
  split
  · exact fun x hx => hx
  · exact fun x hx => hx

/-- C2: once a description is conflicted, a task carrying it is never added to
the confirmed output list or the index again; the conflicted mark persists
across every later step; and a surviving task with that description is instead
appended (deduplicated by raw text) as a candidate to every pending bucket
already queued for that description. -/
theorem conflicted_descriptions_sticky (st : EngineState) (task : MeetingTask)
    (hR : Reach st) (hc : task.description ∈ st.conflicted) :
    (processTask st task).tasks = st.tasks ∧
    (processTask st task).confirmedIdx = st.confirmedIdx ∧
    task.description ∈ (processTask st task).conflicted ∧
    (∀ (st' : EngineState) (t' : MeetingTask),
      st'.conflicted ⊆ (processTask st' t').conflicted) ∧
    (∀ (st' : EngineState) (d' : Str),
      st'.conflicted ⊆ (processDecision st' d').conflicted) ∧
    (task.text ∉ st.seenTask →
      (processTask st task).pending = st.pending.map (fun pc =>
        if pc.description = task.description then
          { pc with candidates := addCandidate pc.candidates task }
        else pc)) := by
  have hwf := wf_reach hR
  have hidx : idxGet st.confirmedIdx task.description = none := by
    cases hg : idxGet st.confirmedIdx task.description with
    | none => rfl
    | some x =>
      exact absurd hc (hwf.idx_not_conflicted task.description (by simp [hg]))
  by_cases hs : task.text ∈ st.seenTask
  · have hfix : processTask st task = st := processTask_of_seen hs
    rw [hfix]
    exact ⟨rfl, rfl, hc, processTask_conflicted_mono, processDecision_conflicted_mono,
      fun hsurv => absurd hs hsurv⟩
  · have hstep : processTask st task =
        { st with
          seenTask := task.text :: st.seenTask
          pending := queuePending st.pending task } := by
      unfold processTask
      rw [if_neg hs]
      simp only [hidx]
      rw [if_pos hc]
    rw [hstep]
    exact ⟨rfl, rfl, hc, processTask_conflicted_mono, processDecision_conflicted_mono,
      fun _ => queuePending_eq_map hwf.buckets_unique⟩

/-- Closed witness for the sticky-conflict theorem: a third task with the
already-conflicted description joins the queued bucket and the confirmed
output stays unchanged. -/
theorem conflicted_descriptions_sticky_witness :
    (processTask (processTask (processTask initState
        ⟨"a1".toList, "d".toList, some "x".toList, some "2026-01-01".toList⟩)
        ⟨"a2".toList, "d".toList, some "y".toList, some "2026-01-01".toList⟩)
        ⟨"a3".toList, "d".toList, some "z".toList, none⟩).tasks =
      (processTask (processTask initState
        ⟨"a1".toList, "d".toList, some "x".toList, some "2026-01-01".toList⟩)
        ⟨"a2".toList, "d".toList, some "y".toList, some "2026-01-01".toList⟩).tasks ∧
    (processTask (processTask (processTask initState
        ⟨"a1".toList, "d".toList, some "x".toList, some "2026-01-01".toList⟩)
        ⟨"a2".toList, "d".toList, some "y".toList, some "2026-01-01".toList⟩)
        ⟨"a3".toList, "d".toList, some "z".toList, none⟩).pending =
      (processTask (processTask initState
        ⟨"a1".toList, "d".toList, some "x".toList, some "2026-01-01".toList⟩)
        ⟨"a2".toList, "d".toList, some "y".toList, some "2026-01-01".toList⟩).pending.map
        (fun pc =>
          if pc.description = (⟨"a3".toList, "d".toList, some "z".toList, none⟩ :
              MeetingTask).description then
            { pc with candidates := addCandidate pc.candidates ⟨"a3".toList, "d".toList, some "z".toList, none⟩ }
          else pc) := by
  have h := conflicted_descriptions_sticky
    (processTask (processTask initState
      ⟨"a1".toList, "d".toList, some "x".toList, some "2026-01-01".toList⟩)
      ⟨"a2".toList, "d".toList, some "y".toList, some "2026-01-01".toList⟩)
    ⟨"a3".toList, "d".toList, some "z".toList, none⟩
    (Reach.task _ _ ⟨by decide, by decide⟩
      (Reach.task _ _ ⟨by decide, by decide⟩ Reach.init))
    (by decide)
  exact ⟨h.1, h.2.2.2.2.2 (by decide)⟩

end OpenClaw
